import Mathlib

/-!
Formal model of the CPU scheduling simulator core (`src/lib/scheduler.ts` and
`src/types/index.ts`).  Machine numbers are modelled as `Int` for the engine
(the data model declares all timing fields integral) and as `ℚ` for the
validator's partial descriptors and for the derived averages/utilization,
where the source performs division.  JS `Array.prototype.sort` (stable since
ES2019) is modelled by a stable insertion sort `sortBy`; the source `while`
loops are modelled by fueled recursion, with fuel-sufficiency proved below.
-/

namespace Scheduler

/-- Input process descriptor (`Process` in `src/types/index.ts`). -/
structure Process where
  pid : String
  arrivalTime : Int
  burstTime : Int
  priority : Int
  insertionOrder : Int
deriving DecidableEq

/-- Timeline segment (`GanttSegment` in `src/types/index.ts`); `pid = none`
is the IDLE marker.  The source field `end` is a Lean keyword and is rendered
`endTime`. -/
structure GanttSegment where
  pid : Option String
  start : Int
  endTime : Int
deriving DecidableEq

/-- Stable insertion used by `sortBy`: an element is placed before the first
entry it compares less-or-equal to. -/
def insertSorted (le : α → α → Bool) (a : α) : List α → List α
  | [] => [a]
  | b :: l => if le a b then a :: b :: l else b :: insertSorted le a l

/-- Stable sort modelling JS `Array.prototype.sort` with comparator `cmp`;
`le a b` means `cmp a b ≤ 0`.  Stability: an element earlier in the input
stays ahead of later elements it ties with. -/
def sortBy (le : α → α → Bool) : List α → List α
  | [] => []
  | x :: xs => insertSorted le x (sortBy le xs)

/-- FCFS comparator of `scheduleFCFS`: by `arrivalTime`, then by
`insertionOrder` (comparator result ≤ 0). -/
def fcfsLE (a b : Process) : Bool :=
  if a.arrivalTime ≠ b.arrivalTime then decide (a.arrivalTime < b.arrivalTime)
  else decide (a.insertionOrder ≤ b.insertionOrder)

/-- SJF comparator of `scheduleSJF`: by `burstTime`, then `arrivalTime`, then
`insertionOrder`. -/
def sjfLE (a b : Process) : Bool :=
  if a.burstTime ≠ b.burstTime then decide (a.burstTime < b.burstTime)
  else if a.arrivalTime ≠ b.arrivalTime then decide (a.arrivalTime < b.arrivalTime)
  else decide (a.insertionOrder ≤ b.insertionOrder)

/-- Priority comparator of `schedulePriority`: by `priority` (lower number
wins), then `arrivalTime`, then `insertionOrder`. -/
def prioLE (a b : Process) : Bool :=
  if a.priority ≠ b.priority then decide (a.priority < b.priority)
  else if a.arrivalTime ≠ b.arrivalTime then decide (a.arrivalTime < b.arrivalTime)
  else decide (a.insertionOrder ≤ b.insertionOrder)

/-- Body of the `for` loop of `scheduleFCFS`: emit an idle segment when the
next process has not arrived yet, then execute it to completion. -/
def fcfsGo : List Process → Int → List GanttSegment
  | [], _ => []
  | p :: rest, currentTime =>
    if currentTime < p.arrivalTime then
      ⟨none, currentTime, p.arrivalTime⟩ ::
        ⟨some p.pid, p.arrivalTime, p.arrivalTime + p.burstTime⟩ ::
        fcfsGo rest (p.arrivalTime + p.burstTime)
    else
      ⟨some p.pid, currentTime, currentTime + p.burstTime⟩ ::
        fcfsGo rest (currentTime + p.burstTime)

/-- `scheduleFCFS` from `src/lib/scheduler.ts`: one global stable sort by
arrival then insertion order, then a single pass emitting segments. -/
def scheduleFCFS (processes : List Process) : List GanttSegment :=
  fcfsGo (sortBy fcfsLE processes) 0

/-- `Math.min(...remaining.map(p => p.arrivalTime))`; only ever used on a
non-empty list in the source. -/
def minArrival : List Process → Int
  | [] => 0
  | p :: rest => rest.foldl (fun m q => min m q.arrivalTime) p.arrivalTime

/-- The shared `while` loop of `scheduleSJF` / `schedulePriority`, fueled:
filter the arrived processes, idle to the next arrival when none has
arrived, otherwise sort the arrived ones by the policy comparator, run the
first to completion and remove it (by pid, via `findIndex`/`splice`).
`none` signals fuel exhaustion (never happens for the fuel used below). -/
def npLoop (le : Process → Process → Bool) (fuel : Nat) (remaining : List Process)
    (currentTime : Int) : Option (List GanttSegment) :=
  match remaining with
  | [] => some []
  | p :: ps =>
    match fuel with
    | 0 => none
    | fuel + 1 =>
      let remaining := p :: ps
      let available := remaining.filter fun q => decide (q.arrivalTime ≤ currentTime)
      if available.isEmpty then
        let nextArrival := minArrival remaining
        (npLoop le fuel remaining nextArrival).map
          (fun g => ⟨none, currentTime, nextArrival⟩ :: g)
      else
        match sortBy le available with
        | [] => none
        | selected :: _ =>
          let remaining2 := remaining.eraseP fun q => q.pid == selected.pid
          (npLoop le fuel remaining2 (currentTime + selected.burstTime)).map
            (fun g => ⟨some selected.pid, currentTime, currentTime + selected.burstTime⟩ :: g)

/-- `scheduleSJF` from `src/lib/scheduler.ts` (fuel `2n+1` is enough, proved
below). -/
def scheduleSJF (processes : List Process) : List GanttSegment :=
  (npLoop sjfLE (2 * processes.length + 1) processes 0).getD []

/-- `schedulePriority` from `src/lib/scheduler.ts`. -/
def schedulePriority (processes : List Process) : List GanttSegment :=
  (npLoop prioLE (2 * processes.length + 1) processes 0).getD []

/-- Modelled from the spec: the general non-preemptive state machine of
§4.1 specialized to the FCFS selection ordering (arrivalTime, then
insertionOrder) — repeatedly filter the available processes
(arrivalTime ≤ currentTime), idle to the minimum remaining arrival when none
is available, otherwise select the first process under the FCFS ordering
(ascending sort, first element wins), emit its full segment and remove it
from the remaining pool.  Refinement counterpart of `scheduleFCFS`, which
the source computes by a single global sort. -/
def npFCFSSpec (fuel : Nat) (remaining : List Process) (currentTime : Int) :
    Option (List GanttSegment) :=
  match remaining with
  | [] => some []
  | p :: ps =>
    match fuel with
    | 0 => none
    | fuel + 1 =>
      let remaining := p :: ps
      let available := remaining.filter fun q => decide (q.arrivalTime ≤ currentTime)
      if available.isEmpty then
        let nextArrival := minArrival remaining
        (npFCFSSpec fuel remaining nextArrival).map
          (fun g => ⟨none, currentTime, nextArrival⟩ :: g)
      else
        match sortBy fcfsLE available with
        | [] => none
        | selected :: _ =>
          (npFCFSSpec fuel (remaining.erase selected) (currentTime + selected.burstTime)).map
            (fun g => ⟨some selected.pid, currentTime, currentTime + selected.burstTime⟩ :: g)

/-- Round Robin working copy (`RRProcess` in the source): a process plus its
remaining burst time. -/
structure RRProcess extends Process where
  remainingBurst : Int
deriving DecidableEq

/-- Arrival/insertion order on `RRProcess`, as used to sort `allProcesses`. -/
def rrLE (a b : RRProcess) : Bool := fcfsLE a.toProcess b.toProcess

/-- The `while` loop of `scheduleRoundRobin`, fueled.  The sorted not-yet
arrived suffix `pending` models the `processIndex` pointer into
`allProcesses`; `enqueueArrivals upTo` is the `takeWhile`/`dropWhile` split
of `pending` at `arrivalTime ≤ upTo` (the source advances the pointer while
exactly this condition holds).  New arrivals are appended to the queue
before the preempted process is pushed back. -/
def rrLoop (quantum : Int) (fuel : Nat) (readyQueue pending : List RRProcess)
    (currentTime : Int) : Option (List GanttSegment) :=
  match readyQueue, pending with
  | [], [] => some []
  | [], p :: ps =>
    match fuel with
    | 0 => none
    | fuel + 1 =>
      let pend := p :: ps
      let nextArrival := p.arrivalTime
      let arrived := pend.takeWhile fun q => decide (q.arrivalTime ≤ nextArrival)
      let pending2 := pend.dropWhile fun q => decide (q.arrivalTime ≤ nextArrival)
      (rrLoop quantum fuel arrived pending2 nextArrival).map
        (fun g => ⟨none, currentTime, nextArrival⟩ :: g)
  | current :: queue, pending =>
    match fuel with
    | 0 => none
    | fuel + 1 =>
      let execTime := min quantum current.remainingBurst
      let t2 := currentTime + execTime
      let current2 : RRProcess := { current with remainingBurst := current.remainingBurst - execTime }
      let arrived := pending.takeWhile fun q => decide (q.arrivalTime ≤ t2)
      let pending2 := pending.dropWhile fun q => decide (q.arrivalTime ≤ t2)
      let queue3 := queue ++ arrived ++ (if 0 < current2.remainingBurst then [current2] else [])
      (rrLoop quantum fuel queue3 pending2 t2).map
        (fun g => ⟨some current.pid, currentTime, t2⟩ :: g)

/-- Total remaining burst, as a natural number, of a list of RR working
copies; used only to size the fuel. -/
def totalBurstNat (l : List RRProcess) : Nat := (l.map fun p => p.remainingBurst.toNat).sum

/-- `scheduleRoundRobin` from `src/lib/scheduler.ts`: copy every process with
`remainingBurst = burstTime`, sort by arrival then insertion order, enqueue
the processes arrived at time 0, and run the fueled loop. -/
def scheduleRoundRobin (processes : List Process) (quantum : Int) : List GanttSegment :=
  let allProcesses := sortBy rrLE (processes.map fun p => { toProcess := p, remainingBurst := p.burstTime })
  let readyQueue := allProcesses.takeWhile fun q => decide (q.arrivalTime ≤ 0)
  let pending := allProcesses.dropWhile fun q => decide (q.arrivalTime ≤ 0)
  (rrLoop quantum (totalBurstNat allProcesses + allProcesses.length + 1) readyQueue pending 0).getD []

/-- Per-process metrics record (`ProcessMetrics` in `src/types/index.ts`). -/
structure ProcessMetrics where
  pid : String
  arrivalTime : Int
  burstTime : Int
  priority : Int
  completionTime : Int
  waitingTime : Int
  turnaroundTime : Int
  responseTime : Int
deriving DecidableEq

/-- Result bundle (`SimulationResult` in `src/types/index.ts`); the averages
and the utilization are rationals since the source divides numbers. -/
structure SimulationResult where
  ganttChart : List GanttSegment
  processMetrics : List ProcessMetrics
  averageWaitingTime : ℚ
  averageTurnaroundTime : ℚ
  averageResponseTime : ℚ
  cpuUtilization : ℚ
  totalTime : Int
deriving DecidableEq

/-- The segments of the chart carrying a given process id. -/
def segsFor (pid : String) (g : List GanttSegment) : List GanttSegment :=
  g.filter fun s => s.pid == some pid

/-- `completionTime.get(pid) || 0`: the `end` of the last segment of the
process (the map entry is overwritten on every matching segment). -/
def completionOf (pid : String) (g : List GanttSegment) : Int :=
  ((segsFor pid g).getLast?.map fun s => s.endTime).getD 0

/-- `firstStartTime.get(pid) || 0`: the `start` of the first segment of the
process (the map entry is only set when absent). -/
def firstStartOf (pid : String) (g : List GanttSegment) : Int :=
  ((segsFor pid g).head?.map fun s => s.start).getD 0

/-- The per-process record built inside `computeMetrics`. -/
def metricsFor (g : List GanttSegment) (p : Process) : ProcessMetrics :=
  let ct := completionOf p.pid g
  let turnaroundTime := ct - p.arrivalTime
  let waitingTime := turnaroundTime - p.burstTime
  let responseTime := firstStartOf p.pid g - p.arrivalTime
  { pid := p.pid, arrivalTime := p.arrivalTime, burstTime := p.burstTime,
    priority := p.priority, completionTime := ct,
    waitingTime := max 0 waitingTime, turnaroundTime := turnaroundTime,
    responseTime := max 0 responseTime }

/-- The display ordering `(a, b) => a.pid.localeCompare(b.pid)`, modelled as
lexicographic string order. -/
def pidLE (a b : ProcessMetrics) : Bool := decide (a.pid ≤ b.pid)

/-- `totalTime`: the `end` of the last chart segment, 0 for an empty chart. -/
def totalTimeOf (g : List GanttSegment) : Int :=
  (g.getLast?.map fun s => s.endTime).getD 0

/-- `busyTime`: the summed duration of the non-idle segments. -/
def busyTimeOf (g : List GanttSegment) : Int :=
  ((g.filter fun s => s.pid ≠ none).map fun s => s.endTime - s.start).sum

/-- `computeMetrics` from `src/lib/scheduler.ts`. -/
def computeMetrics (processes : List Process) (ganttChart : List GanttSegment) : SimulationResult :=
  let processMetrics := sortBy pidLE (processes.map (metricsFor ganttChart))
  let n : ℚ := processMetrics.length
  let avgWaiting := ((processMetrics.map fun p => (p.waitingTime : ℚ)).sum) / n
  let avgTurnaround := ((processMetrics.map fun p => (p.turnaroundTime : ℚ)).sum) / n
  let avgResponse := ((processMetrics.map fun p => (p.responseTime : ℚ)).sum) / n
  let totalTime := totalTimeOf ganttChart
  let busyTime := busyTimeOf ganttChart
  let cpuUtilization : ℚ := if 0 < totalTime then ((busyTime : ℚ) / (totalTime : ℚ)) * 100 else 0
  { ganttChart := ganttChart, processMetrics := processMetrics,
    averageWaitingTime := avgWaiting, averageTurnaroundTime := avgTurnaround,
    averageResponseTime := avgResponse, cpuUtilization := cpuUtilization,
    totalTime := totalTime }

/-- The literal early-return value of `simulateSchedule` for an empty input
list. -/
def emptySimulationResult : SimulationResult :=
  { ganttChart := [], processMetrics := [], averageWaitingTime := 0,
    averageTurnaroundTime := 0, averageResponseTime := 0, cpuUtilization := 0,
    totalTime := 0 }

/-- The defensive copy `processes.map((p) => ({ ...p }))`. -/
def copyProcess (p : Process) : Process :=
  { pid := p.pid, arrivalTime := p.arrivalTime, burstTime := p.burstTime,
    priority := p.priority, insertionOrder := p.insertionOrder }

/-- `simulateSchedule` from `src/lib/scheduler.ts`.  The policy token is a
runtime string; the `switch` is modelled by equality tests in source order,
and the thrown `Error` by `Except.error`.  Note the empty-input early return
happens before the policy dispatch. -/
def simulateSchedule (processes : List Process) (algorithm : String)
    (quantum : Int := 2) : Except String SimulationResult :=
  if processes.isEmpty then .ok emptySimulationResult
  else
    let procs := processes.map copyProcess
    if algorithm = "FCFS" then .ok (computeMetrics procs (scheduleFCFS procs))
    else if algorithm = "SJF" then .ok (computeMetrics procs (scheduleSJF procs))
    else if algorithm = "Priority" then .ok (computeMetrics procs (schedulePriority procs))
    else if algorithm = "RoundRobin" then .ok (computeMetrics procs (scheduleRoundRobin procs quantum))
    else .error ("Unknown algorithm: " ++ algorithm)

/-- Partial process descriptor handed to `validateProcess`
(`Partial<Process>` in the source).  Numeric fields are rationals: the source
`number` type is not integral and `validateProcess` never rounds. -/
structure PartialProcess where
  pid : Option String
  arrivalTime : Option ℚ
  burstTime : Option ℚ
  priority : Option ℚ
deriving DecidableEq

/-- The record returned by `validateProcess`. -/
structure ValidationResult where
  valid : Bool
  errors : List String
deriving DecidableEq

/-- Test for `pid.trim() === ""`: trimming removes exactly the leading and
trailing whitespace, so the trimmed string is empty iff every character is
whitespace.  (This computable form avoids `String.trim`, whose `Substring`
implementation does not reduce in the kernel.) -/
def trimEmpty (s : String) : Bool := s.data.all fun c => c.isWhitespace

/-- `validateProcess` from `src/lib/scheduler.ts`: four independent checks,
each pushing one message; `!process.pid` is true exactly for an absent id or
the empty string, which also trims to the empty string. -/
def validateProcess (process : PartialProcess) : ValidationResult :=
  let errors : List String :=
    (match process.pid with
      | none => ["Process ID is required"]
      | some s => if trimEmpty s then ["Process ID is required"] else [])
    ++ (match process.arrivalTime with
      | none => ["Arrival time must be >= 0"]
      | some a => if a < 0 then ["Arrival time must be >= 0"] else [])
    ++ (match process.burstTime with
      | none => ["Burst time must be > 0"]
      | some b => if b ≤ 0 then ["Burst time must be > 0"] else [])
    ++ (match process.priority with
      | none => ["Priority must be >= 0"]
      | some r => if r < 0 then ["Priority must be >= 0"] else [])
  { valid := errors.isEmpty, errors := errors }

/-- Timeline well-formedness from time `t`: the first segment starts at `t`,
every segment has `endTime > start`, and each segment starts where the
previous one ended.  This is the contiguity/chronology invariant of the
spec. -/
def chainFrom (t : Int) : List GanttSegment → Bool
  | [] => true
  | s :: rest => s.start == t && decide (s.start < s.endTime) && chainFrom s.endTime rest

/-- Total time the chart assigns to one process id. -/
def pidTime (pid : String) (g : List GanttSegment) : Int :=
  ((segsFor pid g).map fun s => s.endTime - s.start).sum

/-- Total burst time the input list assigns to one process id. -/
def burstSum (pid : String) (l : List Process) : Int :=
  ((l.filter fun x => x.pid == pid).map fun x => x.burstTime).sum

/-- Total remaining burst the Round Robin working set assigns to one
process id. -/
def remSum (pid : String) (l : List RRProcess) : Int :=
  ((l.filter fun x => x.pid == pid).map fun x => x.remainingBurst).sum

section SortTheory

variable {α : Type _} {le : α → α → Bool}

theorem insertSorted_perm (le : α → α → Bool) (a : α) :
    ∀ l : List α, List.Perm (insertSorted le a l) (a :: l)
  | [] => List.Perm.refl _
  | b :: l => by
    by_cases h : le a b
    · simp [insertSorted, h]
    · simpa [insertSorted, h] using ((insertSorted_perm le a l).cons b).trans (List.Perm.swap a b l)

theorem sortBy_perm (le : α → α → Bool) : ∀ l : List α, List.Perm (sortBy le l) l
  | [] => List.Perm.refl _
  | x :: xs => (insertSorted_perm le x (sortBy le xs)).trans ((sortBy_perm le xs).cons x)

theorem mem_sortBy {a : α} {l : List α} : a ∈ sortBy le l ↔ a ∈ l :=
  (sortBy_perm le l).mem_iff

theorem length_sortBy (le : α → α → Bool) (l : List α) :
    (sortBy le l).length = l.length :=
  (sortBy_perm le l).length_eq

theorem insertSorted_pairwise
    (htr : ∀ a b c : α, le a b → le b c → le a c)
    (hto : ∀ a b : α, le a b ∨ le b a) (a : α) :
    ∀ {l : List α}, l.Pairwise (le · ·) → (insertSorted le a l).Pairwise (le · ·)
  | [], _ => by simp [insertSorted]
  | b :: l, hp => by
    rcases List.pairwise_cons.mp hp with ⟨hb, hl⟩
    by_cases h : le a b
    · rw [insertSorted, if_pos h]
      refine List.pairwise_cons.mpr ⟨?_, hp⟩
      intro y hy
      rcases List.mem_cons.mp hy with rfl | hy
      · exact h
      · exact htr a b y h (hb y hy)
    · rw [insertSorted, if_neg h]
      refine List.pairwise_cons.mpr ⟨?_, insertSorted_pairwise htr hto a hl⟩
      intro y hy
      have hy' := ((insertSorted_perm le a l).mem_iff).mp hy
      rcases List.mem_cons.mp hy' with rfl | hy'
      · rcases hto y b with h' | h'
        · exact absurd h' h
        · exact h'
      · exact hb y hy'

theorem sortBy_pairwise
    (htr : ∀ a b c : α, le a b → le b c → le a c)
    (hto : ∀ a b : α, le a b ∨ le b a) :
    ∀ l : List α, (sortBy le l).Pairwise (le · ·)
  | [] => List.Pairwise.nil
  | x :: xs => insertSorted_pairwise htr hto x (sortBy_pairwise htr hto xs)

theorem sortBy_head_min
    (htr : ∀ a b c : α, le a b → le b c → le a c)
    (hto : ∀ a b : α, le a b ∨ le b a)
    {l : List α} {s : α} {rest : List α} (h : sortBy le l = s :: rest) :
    ∀ y ∈ l, le s y := by
  intro y hy
  have hy' : y ∈ s :: rest := h ▸ mem_sortBy.mpr hy
  rcases List.mem_cons.mp hy' with rfl | hy'
  · rcases hto y y with h' | h' <;> exact h'
  · have hp := sortBy_pairwise htr hto l
    rw [h] at hp
    exact (List.pairwise_cons.mp hp).1 y hy'

/-- Stable-sort peel: if `s` is a least element of `l` and the order is
antisymmetric on the members of `l`, then sorting `l` yields `s` followed by
the sorted remainder. -/
theorem sortBy_peel
    (htr : ∀ a b c : α, le a b → le b c → le a c)
    (hto : ∀ a b : α, le a b ∨ le b a)
    {l : List α} {s : α}
    (hanti : ∀ a ∈ l, ∀ b ∈ l, le a b → le b a → a = b)
    (hm : s ∈ l) (hmin : ∀ y ∈ l, le s y) [DecidableEq α] :
    sortBy le l = s :: sortBy le (l.erase s) := by
  have hperm1 : List.Perm (sortBy le l) l := sortBy_perm le l
  have hperm2 : List.Perm (s :: sortBy le (l.erase s)) l :=
    ((sortBy_perm le (l.erase s)).cons s).trans (List.perm_cons_erase hm).symm
  refine @List.Perm.eq_of_sorted _ (fun a b => le a b = true) _ _ ?_
    (sortBy_pairwise htr hto l) ?_ (hperm1.trans hperm2.symm)
  · intro a b ha hb hab hba
    exact hanti a (hperm1.subset ha) b (hperm2.subset hb) hab hba
  · refine List.pairwise_cons.mpr ⟨?_, sortBy_pairwise htr hto _⟩
    intro y hy
    exact hmin y (List.erase_subset _ _ (mem_sortBy.mp hy))

end SortTheory

section Comparators

theorem fcfsLE_trans (a b c : Process) (hab : fcfsLE a b) (hbc : fcfsLE b c) : fcfsLE a c := by
  simp only [fcfsLE] at hab hbc ⊢
  split_ifs at hab hbc ⊢ <;> simp_all <;> omega

theorem fcfsLE_total (a b : Process) : fcfsLE a b ∨ fcfsLE b a := by
  simp only [fcfsLE]
  split_ifs <;> simp_all <;> omega

theorem fcfsLE_arrival {a b : Process} (h : fcfsLE a b) : a.arrivalTime ≤ b.arrivalTime := by
  simp only [fcfsLE] at h
  split_ifs at h <;> simp_all <;> omega

theorem fcfsLE_antisymm {a b : Process} (h1 : fcfsLE a b) (h2 : fcfsLE b a) :
    a.arrivalTime = b.arrivalTime ∧ a.insertionOrder = b.insertionOrder := by
  simp only [fcfsLE] at h1 h2
  split_ifs at h1 h2 <;> simp_all <;> omega

theorem sjfLE_trans (a b c : Process) (hab : sjfLE a b) (hbc : sjfLE b c) : sjfLE a c := by
  simp only [sjfLE] at hab hbc ⊢
  split_ifs at hab hbc ⊢ <;> simp_all <;> omega

theorem sjfLE_total (a b : Process) : sjfLE a b ∨ sjfLE b a := by
  simp only [sjfLE]
  split_ifs <;> simp_all <;> omega

theorem prioLE_trans (a b c : Process) (hab : prioLE a b) (hbc : prioLE b c) : prioLE a c := by
  simp only [prioLE] at hab hbc ⊢
  split_ifs at hab hbc ⊢ <;> simp_all <;> omega

theorem prioLE_total (a b : Process) : prioLE a b ∨ prioLE b a := by
  simp only [prioLE]
  split_ifs <;> simp_all <;> omega

theorem rrLE_trans (a b c : RRProcess) (hab : rrLE a b) (hbc : rrLE b c) : rrLE a c :=
  fcfsLE_trans _ _ _ hab hbc

theorem rrLE_total (a b : RRProcess) : rrLE a b ∨ rrLE b a :=
  fcfsLE_total _ _

theorem rrLE_arrival {a b : RRProcess} (h : rrLE a b) : a.arrivalTime ≤ b.arrivalTime :=
  fcfsLE_arrival h

end Comparators

section Helpers

theorem foldl_min_le_init (f : α → Int) :
    ∀ (l : List α) (a : Int), l.foldl (fun m q => min m (f q)) a ≤ a
  | [], _ => le_refl _
  | x :: l, a =>
    (foldl_min_le_init f l (min a (f x))).trans (min_le_left _ _)

theorem foldl_min_le_mem (f : α → Int) :
    ∀ {l : List α} {x : α}, x ∈ l → ∀ (a : Int), l.foldl (fun m q => min m (f q)) a ≤ f x := by
  intro l
  induction l with
  | nil => intro x hx; cases hx
  | cons y l ih =>
    intro x hx a
    rcases List.mem_cons.mp hx with rfl | hx
    · exact (foldl_min_le_init f l (min a (f x))).trans (min_le_right _ _)
    · exact ih hx _

theorem le_foldl_min (f : α → Int) :
    ∀ (l : List α) (a : Int) (c : Int), c ≤ a → (∀ x ∈ l, c ≤ f x) →
      c ≤ l.foldl (fun m q => min m (f q)) a
  | [], _, _, ha, _ => ha
  | x :: l, a, c, ha, h =>
    le_foldl_min f l (min a (f x)) c (le_min ha (h x (List.mem_cons_self x l)))
      (fun y hy => h y (List.mem_cons_of_mem x hy))

theorem minArrival_le {l : List Process} {x : Process} (hx : x ∈ l) :
    minArrival l ≤ x.arrivalTime := by
  cases l with
  | nil => cases hx
  | cons p rest =>
    rcases List.mem_cons.mp hx with rfl | hx
    · exact foldl_min_le_init (fun q => q.arrivalTime) rest _
    · exact foldl_min_le_mem (fun q => q.arrivalTime) hx _

theorem le_minArrival {l : List Process} {c : Int} (hne : l ≠ [])
    (h : ∀ x ∈ l, c ≤ x.arrivalTime) : c ≤ minArrival l := by
  cases l with
  | nil => exact absurd rfl hne
  | cons p rest =>
    exact le_foldl_min (fun q => q.arrivalTime) rest _ c (h p (List.mem_cons_self p rest))
      (fun y hy => h y (List.mem_cons_of_mem p hy))

theorem chainFrom_cons {t : Int} {s : GanttSegment} {g : List GanttSegment} :
    chainFrom t (s :: g) = true ↔ s.start = t ∧ s.start < s.endTime ∧ chainFrom s.endTime g = true := by
  simp [chainFrom, Bool.and_assoc]

theorem pidTime_nil (pid : String) : pidTime pid [] = 0 := rfl

theorem pidTime_cons (pid : String) (s : GanttSegment) (g : List GanttSegment) :
    pidTime pid (s :: g) =
      (if s.pid == some pid then s.endTime - s.start else 0) + pidTime pid g := by
  by_cases h : s.pid == some pid <;> simp [pidTime, segsFor, List.filter_cons, h]

theorem pidTime_idle (pid : String) (t u : Int) (g : List GanttSegment) :
    pidTime pid (⟨none, t, u⟩ :: g) = pidTime pid g := by
  simp [pidTime_cons]

theorem foldl_min_attained (f : α → Int) :
    ∀ (l : List α) (a : Int), l.foldl (fun m q => min m (f q)) a = a ∨
      ∃ x ∈ l, l.foldl (fun m q => min m (f q)) a = f x
  | [], _ => Or.inl rfl
  | y :: l, a => by
    rcases foldl_min_attained f l (min a (f y)) with h | ⟨x, hx, h⟩
    · rcases le_total a (f y) with h' | h'
      · exact Or.inl (by simpa [min_eq_left h'] using h)
      · exact Or.inr ⟨y, List.mem_cons_self y l, by simpa [min_eq_right h'] using h⟩
    · exact Or.inr ⟨x, List.mem_cons_of_mem y hx, h⟩

theorem minArrival_attained {l : List Process} (h : l ≠ []) :
    ∃ x ∈ l, x.arrivalTime = minArrival l := by
  cases l with
  | nil => exact absurd rfl h
  | cons p rest =>
    rcases foldl_min_attained (fun q => q.arrivalTime) rest p.arrivalTime with h' | ⟨x, hx, h'⟩
    · exact ⟨p, List.mem_cons_self p rest, h'.symm⟩
    · exact ⟨x, List.mem_cons_of_mem p hx, h'.symm⟩

theorem burstSum_nil (pid : String) : burstSum pid [] = 0 := rfl

theorem burstSum_cons (pid : String) (x : Process) (l : List Process) :
    burstSum pid (x :: l) = (if x.pid == pid then x.burstTime else 0) + burstSum pid l := by
  by_cases h : x.pid == pid <;> simp [burstSum, List.filter_cons, h]

theorem burstSum_append (pid : String) (l₁ l₂ : List Process) :
    burstSum pid (l₁ ++ l₂) = burstSum pid l₁ + burstSum pid l₂ := by
  simp [burstSum, List.filter_append]

theorem burstSum_eq_zero {pid : String} :
    ∀ {l : List Process}, pid ∉ l.map Process.pid → burstSum pid l = 0
  | [], _ => rfl
  | x :: l, h => by
    have h1 : ¬(x.pid == pid) := by
      simp only [List.map_cons, List.mem_cons] at h
      simpa using fun e => h (Or.inl e.symm)
    have h2 : pid ∉ l.map Process.pid := by
      simp only [List.map_cons, List.mem_cons] at h
      exact fun e => h (Or.inr e)
    simp [burstSum_cons, h1, burstSum_eq_zero h2]

theorem remSum_nil (pid : String) : remSum pid [] = 0 := rfl

theorem remSum_cons (pid : String) (x : RRProcess) (l : List RRProcess) :
    remSum pid (x :: l) = (if x.pid == pid then x.remainingBurst else 0) + remSum pid l := by
  by_cases h : x.pid == pid <;> simp [remSum, List.filter_cons, h]

theorem remSum_append (pid : String) (l₁ l₂ : List RRProcess) :
    remSum pid (l₁ ++ l₂) = remSum pid l₁ + remSum pid l₂ := by
  simp [remSum, List.filter_append]

theorem remSum_eq_zero {pid : String} :
    ∀ {l : List RRProcess}, pid ∉ l.map (fun x => x.pid) → remSum pid l = 0
  | [], _ => rfl
  | x :: l, h => by
    have h1 : ¬(x.pid == pid) := by
      simp only [List.map_cons, List.mem_cons] at h
      simpa using fun e => h (Or.inl e.symm)
    have h2 : pid ∉ l.map (fun x => x.pid) := by
      simp only [List.map_cons, List.mem_cons] at h
      exact fun e => h (Or.inr e)
    simp [remSum_cons, h1, remSum_eq_zero h2]

theorem burstSum_perm {pid : String} {l l' : List Process} (h : List.Perm l l') :
    burstSum pid l = burstSum pid l' :=
  ((h.filter _).map _).sum_eq

theorem remSum_perm {pid : String} {l l' : List RRProcess} (h : List.Perm l l') :
    remSum pid l = remSum pid l' :=
  ((h.filter _).map _).sum_eq

end Helpers

section FCFS

theorem fcfsGo_chain : ∀ (l : List Process) (t : Int),
    (∀ p ∈ l, 0 < p.burstTime) → chainFrom t (fcfsGo l t) = true
  | [], _, _ => rfl
  | p :: rest, t, hv => by
    have hp : 0 < p.burstTime := hv p (List.mem_cons_self p rest)
    have hrest : ∀ q ∈ rest, 0 < q.burstTime := fun q hq => hv q (List.mem_cons_of_mem p hq)
    by_cases h : t < p.arrivalTime
    · rw [fcfsGo, if_pos h]
      exact chainFrom_cons.mpr ⟨rfl, h,
        chainFrom_cons.mpr ⟨rfl,
          show p.arrivalTime < p.arrivalTime + p.burstTime by omega,
          fcfsGo_chain rest _ hrest⟩⟩
    · rw [fcfsGo, if_neg h]
      exact chainFrom_cons.mpr ⟨rfl,
        show t < t + p.burstTime by omega,
        fcfsGo_chain rest _ hrest⟩

theorem fcfsGo_pidTime : ∀ (l : List Process) (t : Int) (pid : String),
    pidTime pid (fcfsGo l t) = burstSum pid l
  | [], _, _ => rfl
  | p :: rest, t, pid => by
    by_cases h : t < p.arrivalTime
    · rw [fcfsGo, if_pos h]
      rw [pidTime_idle, pidTime_cons, fcfsGo_pidTime rest _ pid, burstSum_cons]
      by_cases hp : p.pid == pid <;> simp [hp]
    · rw [fcfsGo, if_neg h]
      rw [pidTime_cons, fcfsGo_pidTime rest _ pid, burstSum_cons]
      by_cases hp : p.pid == pid <;> simp [hp]

end FCFS

section NonPreemptive

theorem sortBy_ne_nil {le : α → α → Bool} {l : List α} (h : l ≠ []) : sortBy le l ≠ [] := by
  intro h0
  have hlen := length_sortBy le l
  rw [h0] at hlen
  exact h (List.length_eq_zero.mp hlen.symm)

theorem npLoop_nil (le : Process → Process → Bool) (fuel : Nat) (t : Int) :
    npLoop le fuel [] t = some [] := by
  cases fuel <;> rfl

theorem npLoop_succ (le : Process → Process → Bool) (fuel : Nat) (p : Process)
    (ps : List Process) (t : Int) :
    npLoop le (fuel + 1) (p :: ps) t =
      (if ((p :: ps).filter fun q => decide (q.arrivalTime ≤ t)).isEmpty then
        (npLoop le fuel (p :: ps) (minArrival (p :: ps))).map
          (fun g => ⟨none, t, minArrival (p :: ps)⟩ :: g)
      else
        match sortBy le ((p :: ps).filter fun q => decide (q.arrivalTime ≤ t)) with
        | [] => none
        | selected :: _ =>
          (npLoop le fuel ((p :: ps).eraseP fun q => q.pid == selected.pid)
              (t + selected.burstTime)).map
            (fun g => ⟨some selected.pid, t, t + selected.burstTime⟩ :: g)) := rfl

/-- Master invariant for the shared non-preemptive loop: with fuel at least
twice the pool size the loop completes, produces a contiguous chart starting
at the current time, and (for pairwise-distinct pids) conserves each pid's
total burst. -/
theorem npLoop_master (le : Process → Process → Bool)
    (htr : ∀ a b c : Process, le a b → le b c → le a c)
    (hto : ∀ a b : Process, le a b ∨ le b a) :
    ∀ (n fuel : Nat) (remaining : List Process) (t : Int),
      remaining.length ≤ n → 2 * n ≤ fuel →
      (∀ p ∈ remaining, 0 < p.burstTime) →
      ∃ g, npLoop le fuel remaining t = some g ∧ chainFrom t g = true ∧
        ((remaining.map Process.pid).Nodup →
          ∀ pid, pidTime pid g = burstSum pid remaining) := by
  intro n
  induction n with
  | zero =>
    intro fuel remaining t hlen _ _
    have h0 : remaining = [] := List.length_eq_zero.mp (Nat.le_zero.mp hlen)
    subst h0
    exact ⟨[], npLoop_nil le fuel t, rfl, fun _ pid => rfl⟩
  | succ n IH =>
    intro fuel remaining t hlen hfuel hv
    cases remaining with
    | nil => exact ⟨[], npLoop_nil le fuel t, rfl, fun _ pid => rfl⟩
    | cons p ps =>
      have hlen' : ps.length ≤ n := by simpa using hlen
      have hstep : ∀ (fuel2 : Nat) (t2 : Int), 2 * n + 1 ≤ fuel2 →
          (p :: ps).filter (fun q => decide (q.arrivalTime ≤ t2)) ≠ [] →
          ∃ g, npLoop le fuel2 (p :: ps) t2 = some g ∧ chainFrom t2 g = true ∧
            (((p :: ps).map Process.pid).Nodup →
              ∀ pid, pidTime pid g = burstSum pid (p :: ps)) := by
        intro fuel2 t2 hf2 hne
        cases fuel2 with
        | zero => omega
        | succ f2 =>
          have hemp : ((p :: ps).filter fun q => decide (q.arrivalTime ≤ t2)).isEmpty = false := by
            cases h0 : (p :: ps).filter fun q => decide (q.arrivalTime ≤ t2) with
            | nil => exact absurd h0 hne
            | cons a l => rfl
          rcases hsort : sortBy le ((p :: ps).filter fun q => decide (q.arrivalTime ≤ t2)) with
            _ | ⟨sel, srest⟩
          · exact absurd hsort (sortBy_ne_nil hne)
          have hselsort : sel ∈ sortBy le ((p :: ps).filter fun q => decide (q.arrivalTime ≤ t2)) := by
            rw [hsort]; exact List.mem_cons_self sel srest
          have hselav : sel ∈ (p :: ps).filter fun q => decide (q.arrivalTime ≤ t2) :=
            mem_sortBy.mp hselsort
          have hselmem : sel ∈ p :: ps := List.mem_of_mem_filter hselav
          have hselburst : 0 < sel.burstTime := hv sel hselmem
          obtain ⟨c, l₁, l₂, hnl, hc, hsplit, herase⟩ :=
            List.exists_of_eraseP (p := fun q => q.pid == sel.pid) hselmem (by simp)
          have hlen2 : ((p :: ps).eraseP fun q => q.pid == sel.pid).length ≤ n := by
            rw [List.length_eraseP_of_mem hselmem (by simp)]
            simpa using hlen'
          have hv2 : ∀ q ∈ (p :: ps).eraseP fun q => q.pid == sel.pid, 0 < q.burstTime :=
            fun q hq => hv q (List.eraseP_subset _ hq)
          obtain ⟨g, hg, hchain, hsum⟩ :=
            IH f2 ((p :: ps).eraseP fun q => q.pid == sel.pid) (t2 + sel.burstTime)
              hlen2 (by omega) hv2
          refine ⟨⟨some sel.pid, t2, t2 + sel.burstTime⟩ :: g, ?_, ?_, ?_⟩
          · rw [npLoop_succ, if_neg (by simp [hemp]), hsort]
            show (npLoop le f2 ((p :: ps).eraseP fun q => q.pid == sel.pid)
                (t2 + sel.burstTime)).map
              (fun g => ⟨some sel.pid, t2, t2 + sel.burstTime⟩ :: g) = _
            rw [hg]
            rfl
          · exact chainFrom_cons.mpr ⟨rfl,
              show t2 < t2 + sel.burstTime by omega, hchain⟩
          · intro hnd pid
            have hnd2 : (((p :: ps).eraseP fun q => q.pid == sel.pid).map Process.pid).Nodup :=
              hnd.sublist ((List.eraseP_sublist _).map _)
            have hcm : c ∈ p :: ps := by
              rw [hsplit]; exact List.mem_append_right l₁ (List.mem_cons_self c l₂)
            have hcs : c = sel :=
              List.inj_on_of_nodup_map hnd hcm hselmem (by simpa using hc)
            subst hcs
            rw [pidTime_cons, hsum hnd2 pid, herase, burstSum_append]
            conv_rhs => rw [hsplit]
            rw [burstSum_append, burstSum_cons]
            by_cases hpid : c.pid == pid <;> simp [hpid] <;> omega
      by_cases hav : ((p :: ps).filter fun q => decide (q.arrivalTime ≤ t)) = []
      · cases fuel with
        | zero => omega
        | succ f =>
          have hgt : ∀ x ∈ p :: ps, t < x.arrivalTime := by
            intro x hx
            have hx' := List.filter_eq_nil_iff.mp hav x hx
            simpa using hx'
          have hna : t < minArrival (p :: ps) := by
            have h1 : t + 1 ≤ minArrival (p :: ps) :=
              le_minArrival (by simp) (fun x hx => by have := hgt x hx; omega)
            omega
          obtain ⟨x, hx, hxe⟩ := minArrival_attained (l := p :: ps) (by simp)
          have hne2 : (p :: ps).filter (fun q => decide (q.arrivalTime ≤ minArrival (p :: ps))) ≠ [] := by
            intro h0
            have hx' := List.filter_eq_nil_iff.mp h0 x hx
            simp [hxe] at hx'
          obtain ⟨g, hg, hchain, hsum⟩ := hstep f (minArrival (p :: ps)) (by omega) hne2
          have hemp : ((p :: ps).filter fun q => decide (q.arrivalTime ≤ t)).isEmpty = true := by
            rw [hav]; rfl
          refine ⟨⟨none, t, minArrival (p :: ps)⟩ :: g, ?_, ?_, ?_⟩
          · rw [npLoop_succ, if_pos hemp, hg]
            rfl
          · exact chainFrom_cons.mpr ⟨rfl, hna, hchain⟩
          · intro hnd pid
            rw [pidTime_idle]
            exact hsum hnd pid
      · exact hstep fuel t (by omega) hav

end NonPreemptive

section RoundRobin

theorem totalBurstNat_cons (x : RRProcess) (l : List RRProcess) :
    totalBurstNat (x :: l) = x.remainingBurst.toNat + totalBurstNat l := by
  simp [totalBurstNat]

theorem totalBurstNat_append (l₁ l₂ : List RRProcess) :
    totalBurstNat (l₁ ++ l₂) = totalBurstNat l₁ + totalBurstNat l₂ := by
  simp [totalBurstNat]

theorem dropWhile_arrival_gt {c : Int} :
    ∀ {l : List RRProcess},
      l.Pairwise (fun a b => a.arrivalTime ≤ b.arrivalTime) →
      ∀ x ∈ l.dropWhile fun q => decide (q.arrivalTime ≤ c), c < x.arrivalTime
  | [], _, x, hx => by simp at hx
  | a :: l, hp, x, hx => by
    rcases List.pairwise_cons.mp hp with ⟨ha, hl⟩
    by_cases h : a.arrivalTime ≤ c
    · rw [List.dropWhile_cons, if_pos (by simpa using h)] at hx
      exact dropWhile_arrival_gt hl x hx
    · rw [List.dropWhile_cons, if_neg (by simpa using h)] at hx
      rcases List.mem_cons.mp hx with rfl | hx'
      · omega
      · have := ha x hx'
        omega

theorem takeWhile_arrival_filter {c : Int} :
    ∀ {l : List RRProcess},
      l.Pairwise (fun a b => a.arrivalTime ≤ b.arrivalTime) →
      (l.takeWhile fun q => decide (q.arrivalTime ≤ c)) = l.filter fun q => decide (q.arrivalTime ≤ c)
  | [], _ => rfl
  | a :: l, hp => by
    rcases List.pairwise_cons.mp hp with ⟨ha, hl⟩
    by_cases h : a.arrivalTime ≤ c
    · rw [List.takeWhile_cons, if_pos (by simpa using h), List.filter_cons,
        if_pos (by simpa using h), takeWhile_arrival_filter hl]
    · rw [List.takeWhile_cons, if_neg (by simpa using h), List.filter_cons,
        if_neg (by simpa using h)]
      symm
      rw [List.filter_eq_nil_iff]
      intro x hx
      have := ha x hx
      simp only [decide_eq_true_eq]
      omega

theorem rrLoop_nil (q : Int) (fuel : Nat) (t : Int) : rrLoop q fuel [] [] t = some [] := by
  cases fuel <;> rfl

theorem rrLoop_idle (q : Int) (fuel : Nat) (hd : RRProcess) (ps : List RRProcess) (t : Int) :
    rrLoop q (fuel + 1) [] (hd :: ps) t =
      (rrLoop q fuel ((hd :: ps).takeWhile fun x : RRProcess => decide (x.arrivalTime ≤ hd.arrivalTime))
        ((hd :: ps).dropWhile fun x : RRProcess => decide (x.arrivalTime ≤ hd.arrivalTime))
        hd.arrivalTime).map
        (fun g => ⟨none, t, hd.arrivalTime⟩ :: g) := rfl

theorem rrLoop_run (q : Int) (fuel : Nat) (current : RRProcess) (queue pending : List RRProcess)
    (t : Int) :
    rrLoop q (fuel + 1) (current :: queue) pending t =
      (rrLoop q fuel
        (queue ++ (pending.takeWhile fun x : RRProcess => decide (x.arrivalTime ≤ t + min q current.remainingBurst))
          ++ (if 0 < current.remainingBurst - min q current.remainingBurst then
              [{ current with remainingBurst := current.remainingBurst - min q current.remainingBurst }]
            else []))
        (pending.dropWhile fun x : RRProcess => decide (x.arrivalTime ≤ t + min q current.remainingBurst))
        (t + min q current.remainingBurst)).map
        (fun g => ⟨some current.pid, t, t + min q current.remainingBurst⟩ :: g) := rfl

/-- Master invariant for the Round Robin loop: with fuel at least the total
remaining burst plus the number of not-yet-arrived processes the loop
completes, produces a contiguous chart from the current time, and (for
pairwise-distinct pids) conserves each pid's remaining burst. -/
theorem rrLoop_master (q : Int) (hq : 1 ≤ q) :
    ∀ (fuel : Nat) (queue pending : List RRProcess) (t : Int),
      totalBurstNat (queue ++ pending) + pending.length ≤ fuel →
      (∀ x ∈ queue, 0 < x.remainingBurst) →
      (∀ x ∈ pending, 0 < x.remainingBurst) →
      (∀ x ∈ pending, t < x.arrivalTime) →
      pending.Pairwise (fun a b => a.arrivalTime ≤ b.arrivalTime) →
      ∃ g, rrLoop q fuel queue pending t = some g ∧ chainFrom t g = true ∧
        (((queue ++ pending).map (fun x : RRProcess => x.pid)).Nodup →
          ∀ pid, pidTime pid g = remSum pid (queue ++ pending)) := by
  intro fuel
  induction fuel with
  | zero =>
    intro queue pending t hm hrq hrp hta hs
    cases queue with
    | cons x rest =>
      have hx : 0 < x.remainingBurst := hrq x (List.mem_cons_self x rest)
      rw [List.cons_append, totalBurstNat_cons] at hm
      omega
    | nil =>
      cases pending with
      | cons y rest => simp at hm
      | nil => exact ⟨[], rrLoop_nil q 0 t, rfl, fun _ pid => rfl⟩
  | succ fuel IH =>
    intro queue pending t hm hrq hrp hta hs
    cases queue with
    | nil =>
      cases pending with
      | nil => exact ⟨[], rrLoop_nil q (fuel + 1) t, rfl, fun _ pid => rfl⟩
      | cons hd ps =>
        have hsplit : ((hd :: ps).takeWhile fun x : RRProcess => decide (x.arrivalTime ≤ hd.arrivalTime)) ++
            ((hd :: ps).dropWhile fun x : RRProcess => decide (x.arrivalTime ≤ hd.arrivalTime)) = hd :: ps :=
          List.takeWhile_append_dropWhile _ _
        have hdrop : ((hd :: ps).dropWhile fun x : RRProcess => decide (x.arrivalTime ≤ hd.arrivalTime)) =
            ps.dropWhile fun x : RRProcess => decide (x.arrivalTime ≤ hd.arrivalTime) := by
          rw [List.dropWhile_cons, if_pos (by simp)]
        have hlen2 : ((hd :: ps).dropWhile fun x : RRProcess => decide (x.arrivalTime ≤ hd.arrivalTime)).length
            ≤ ps.length := by
          rw [hdrop]
          exact (List.dropWhile_sublist _).length_le
        have hT : totalBurstNat (((hd :: ps).takeWhile fun x : RRProcess => decide (x.arrivalTime ≤ hd.arrivalTime)) ++
            ((hd :: ps).dropWhile fun x : RRProcess => decide (x.arrivalTime ≤ hd.arrivalTime))) =
            totalBurstNat (hd :: ps) := by rw [hsplit]
        have hmeas : totalBurstNat
            ((((hd :: ps).takeWhile fun x : RRProcess => decide (x.arrivalTime ≤ hd.arrivalTime)) ++
              ((hd :: ps).dropWhile fun x : RRProcess => decide (x.arrivalTime ≤ hd.arrivalTime)))) +
            ((hd :: ps).dropWhile fun x : RRProcess => decide (x.arrivalTime ≤ hd.arrivalTime)).length ≤ fuel := by
          rw [hT]
          simp only [List.nil_append, List.length_cons] at hm
          omega
        obtain ⟨g, hg, hchain, hsum⟩ := IH
          ((hd :: ps).takeWhile fun x : RRProcess => decide (x.arrivalTime ≤ hd.arrivalTime))
          ((hd :: ps).dropWhile fun x : RRProcess => decide (x.arrivalTime ≤ hd.arrivalTime))
          hd.arrivalTime hmeas
          (fun x hx => hrp x ((List.takeWhile_sublist _).subset hx))
          (fun x hx => hrp x ((List.dropWhile_sublist _).subset hx))
          (fun x hx => dropWhile_arrival_gt hs x hx)
          (hs.sublist (List.dropWhile_sublist _))
        refine ⟨⟨none, t, hd.arrivalTime⟩ :: g, ?_, ?_, ?_⟩
        · rw [rrLoop_idle, hg]
          rfl
        · exact chainFrom_cons.mpr ⟨rfl, hta hd (List.mem_cons_self hd ps), hchain⟩
        · intro hnd pid
          have hnd' := hnd
          rw [List.nil_append] at hnd'
          rw [pidTime_idle, hsum (by rw [hsplit]; exact hnd') pid, hsplit, List.nil_append]
    | cons current queue =>
      have hcur : 0 < current.remainingBurst := hrq current (List.mem_cons_self _ _)
      have hexec1 : 1 ≤ min q current.remainingBurst := le_min hq (by omega)
      have hexec2 : min q current.remainingBurst ≤ current.remainingBurst := min_le_right _ _
      have hpsplit : (pending.takeWhile fun x : RRProcess => decide (x.arrivalTime ≤ t + min q current.remainingBurst)) ++
          (pending.dropWhile fun x : RRProcess => decide (x.arrivalTime ≤ t + min q current.remainingBurst)) =
          pending := List.takeWhile_append_dropWhile _ _
      have hTsplit : totalBurstNat (pending.takeWhile fun x : RRProcess => decide (x.arrivalTime ≤ t + min q current.remainingBurst)) +
          totalBurstNat (pending.dropWhile fun x : RRProcess => decide (x.arrivalTime ≤ t + min q current.remainingBurst)) =
          totalBurstNat pending := by
        rw [← totalBurstNat_append, hpsplit]
      have hToptle : totalBurstNat (if 0 < current.remainingBurst - min q current.remainingBurst then
          [{ current with remainingBurst := current.remainingBurst - min q current.remainingBurst }]
          else []) ≤ (current.remainingBurst - min q current.remainingBurst).toNat := by
        by_cases h : 0 < current.remainingBurst - min q current.remainingBurst <;>
          simp [h, totalBurstNat]
      have hlen2 : (pending.dropWhile fun x : RRProcess => decide (x.arrivalTime ≤ t + min q current.remainingBurst)).length
          ≤ pending.length := (List.dropWhile_sublist _).length_le
      have hmeas : totalBurstNat
          ((queue ++ (pending.takeWhile fun x : RRProcess => decide (x.arrivalTime ≤ t + min q current.remainingBurst))
            ++ (if 0 < current.remainingBurst - min q current.remainingBurst then
                [{ current with remainingBurst := current.remainingBurst - min q current.remainingBurst }]
              else [])) ++
            (pending.dropWhile fun x : RRProcess => decide (x.arrivalTime ≤ t + min q current.remainingBurst))) +
          (pending.dropWhile fun x : RRProcess => decide (x.arrivalTime ≤ t + min q current.remainingBurst)).length
          ≤ fuel := by
        rw [totalBurstNat_append, totalBurstNat_append, totalBurstNat_append]
        rw [List.cons_append, totalBurstNat_cons, totalBurstNat_append] at hm
        omega
      obtain ⟨g, hg, hchain, hsum⟩ := IH
        (queue ++ (pending.takeWhile fun x : RRProcess => decide (x.arrivalTime ≤ t + min q current.remainingBurst))
          ++ (if 0 < current.remainingBurst - min q current.remainingBurst then
              [{ current with remainingBurst := current.remainingBurst - min q current.remainingBurst }]
            else []))
        (pending.dropWhile fun x : RRProcess => decide (x.arrivalTime ≤ t + min q current.remainingBurst))
        (t + min q current.remainingBurst) hmeas
        (by
          intro x hx
          rcases List.mem_append.mp hx with hx | hx
          · rcases List.mem_append.mp hx with hx | hx
            · exact hrq x (List.mem_cons_of_mem _ hx)
            · exact hrp x ((List.takeWhile_sublist _).subset hx)
          · by_cases h : 0 < current.remainingBurst - min q current.remainingBurst
            · rw [if_pos h] at hx
              rcases List.mem_cons.mp hx with rfl | hx
              · simpa using h
              · simp at hx
            · rw [if_neg h] at hx
              simp at hx)
        (fun x hx => hrp x ((List.dropWhile_sublist _).subset hx))
        (fun x hx => dropWhile_arrival_gt hs x hx)
        (hs.sublist (List.dropWhile_sublist _))
      refine ⟨⟨some current.pid, t, t + min q current.remainingBurst⟩ :: g, ?_, ?_, ?_⟩
      · rw [rrLoop_run, hg]
        rfl
      · exact chainFrom_cons.mpr ⟨rfl,
          show t < t + min q current.remainingBurst by omega, hchain⟩
      · intro hnd pid
        have hndbig : (((current :: queue) ++
            ((pending.takeWhile fun x : RRProcess => decide (x.arrivalTime ≤ t + min q current.remainingBurst)) ++
             (pending.dropWhile fun x : RRProcess => decide (x.arrivalTime ≤ t + min q current.remainingBurst)))).map
            (fun x : RRProcess => x.pid)).Nodup := by
          rw [hpsplit]
          exact hnd
        have hnd3 : (((queue ++ (pending.takeWhile fun x : RRProcess => decide (x.arrivalTime ≤ t + min q current.remainingBurst))
            ++ (if 0 < current.remainingBurst - min q current.remainingBurst then
                [{ current with remainingBurst := current.remainingBurst - min q current.remainingBurst }]
              else [])) ++
            (pending.dropWhile fun x : RRProcess => decide (x.arrivalTime ≤ t + min q current.remainingBurst))).map
            (fun x : RRProcess => x.pid)).Nodup := by
          by_cases h : 0 < current.remainingBurst - min q current.remainingBurst
          · rw [if_pos h]
            have e1 : (queue ++ (pending.takeWhile fun x : RRProcess => decide (x.arrivalTime ≤ t + min q current.remainingBurst))
                ++ [{ current with remainingBurst := current.remainingBurst - min q current.remainingBurst }]) ++
                (pending.dropWhile fun x : RRProcess => decide (x.arrivalTime ≤ t + min q current.remainingBurst)) =
                (queue ++ (pending.takeWhile fun x : RRProcess => decide (x.arrivalTime ≤ t + min q current.remainingBurst))) ++
                ({ current with remainingBurst := current.remainingBurst - min q current.remainingBurst } ::
                 (pending.dropWhile fun x : RRProcess => decide (x.arrivalTime ≤ t + min q current.remainingBurst))) := by
              simp
            rw [e1]
            have hperm : List.Perm
                ({ current with remainingBurst := current.remainingBurst - min q current.remainingBurst } ::
                  ((queue ++ (pending.takeWhile fun x : RRProcess => decide (x.arrivalTime ≤ t + min q current.remainingBurst))) ++
                   (pending.dropWhile fun x : RRProcess => decide (x.arrivalTime ≤ t + min q current.remainingBurst))))
                ((queue ++ (pending.takeWhile fun x : RRProcess => decide (x.arrivalTime ≤ t + min q current.remainingBurst))) ++
                 ({ current with remainingBurst := current.remainingBurst - min q current.remainingBurst } ::
                  (pending.dropWhile fun x : RRProcess => decide (x.arrivalTime ≤ t + min q current.remainingBurst)))) :=
              List.perm_middle.symm
            refine (hperm.map (fun x : RRProcess => x.pid)).nodup ?_
            simpa [List.append_assoc] using hndbig
          · rw [if_neg h]
            refine hndbig.sublist ?_
            refine List.Sublist.map _ ?_
            have e2 : (queue ++ (pending.takeWhile fun x : RRProcess => decide (x.arrivalTime ≤ t + min q current.remainingBurst))
                ++ ([] : List RRProcess)) ++
                (pending.dropWhile fun x : RRProcess => decide (x.arrivalTime ≤ t + min q current.remainingBurst)) =
                queue ++ ((pending.takeWhile fun x : RRProcess => decide (x.arrivalTime ≤ t + min q current.remainingBurst)) ++
                 (pending.dropWhile fun x : RRProcess => decide (x.arrivalTime ≤ t + min q current.remainingBurst))) := by
              simp
            rw [e2]
            exact List.sublist_cons_self _ _
        have hopt : remSum pid (if 0 < current.remainingBurst - min q current.remainingBurst then
            [{ current with remainingBurst := current.remainingBurst - min q current.remainingBurst }]
            else []) = if 0 < current.remainingBurst - min q current.remainingBurst then
              (if current.pid == pid then current.remainingBurst - min q current.remainingBurst else 0)
            else 0 := by
          by_cases h : 0 < current.remainingBurst - min q current.remainingBurst <;>
            simp [h, remSum_cons, remSum_nil]
        have hL : remSum pid
            ((queue ++ (pending.takeWhile fun x : RRProcess => decide (x.arrivalTime ≤ t + min q current.remainingBurst))
              ++ (if 0 < current.remainingBurst - min q current.remainingBurst then
                  [{ current with remainingBurst := current.remainingBurst - min q current.remainingBurst }]
                else [])) ++
              (pending.dropWhile fun x : RRProcess => decide (x.arrivalTime ≤ t + min q current.remainingBurst))) =
            remSum pid queue +
            remSum pid (pending.takeWhile fun x : RRProcess => decide (x.arrivalTime ≤ t + min q current.remainingBurst)) +
            remSum pid (if 0 < current.remainingBurst - min q current.remainingBurst then
                [{ current with remainingBurst := current.remainingBurst - min q current.remainingBurst }]
              else []) +
            remSum pid (pending.dropWhile fun x : RRProcess => decide (x.arrivalTime ≤ t + min q current.remainingBurst)) := by
          rw [remSum_append, remSum_append, remSum_append]
        have hRp : remSum pid (pending.takeWhile fun x : RRProcess => decide (x.arrivalTime ≤ t + min q current.remainingBurst)) +
            remSum pid (pending.dropWhile fun x : RRProcess => decide (x.arrivalTime ≤ t + min q current.remainingBurst)) =
            remSum pid pending := by
          rw [← remSum_append, hpsplit]
        have hR : remSum pid ((current :: queue) ++ pending) =
            (if current.pid == pid then current.remainingBurst else 0) +
            (remSum pid queue + remSum pid pending) := by
          rw [List.cons_append, remSum_cons, remSum_append]
        rw [pidTime_cons, hsum hnd3 pid, hL, hR, hopt, ← hRp]
        by_cases hpid : current.pid == pid <;>
          by_cases hpos : 0 < current.remainingBurst - min q current.remainingBurst <;>
          simp [hpid, hpos] <;> omega

end RoundRobin

section Glue

theorem burstSum_of_mem :
    ∀ {l : List Process} {p : Process}, (l.map Process.pid).Nodup → p ∈ l →
      burstSum p.pid l = p.burstTime
  | [], _, _, hp => absurd hp (List.not_mem_nil _)
  | x :: rest, p, hnd, hp => by
    rw [List.map_cons, List.nodup_cons] at hnd
    rcases List.mem_cons.mp hp with rfl | hp'
    · rw [burstSum_cons, if_pos (by simp), burstSum_eq_zero hnd.1]
      omega
    · have hne : ¬(x.pid == p.pid) := by
        have : p.pid ∈ rest.map Process.pid := List.mem_map_of_mem _ hp'
        simp only [beq_iff_eq]
        intro e
        exact hnd.1 (e ▸ this)
      rw [burstSum_cons, if_neg hne, burstSum_of_mem hnd.2 hp']
      omega

theorem remSum_map_toRR (pid : String) :
    ∀ procs : List Process,
      remSum pid (procs.map fun p => ({ toProcess := p, remainingBurst := p.burstTime } : RRProcess)) =
        burstSum pid procs
  | [] => rfl
  | p :: rest => by
    rw [List.map_cons, remSum_cons, burstSum_cons, remSum_map_toRR pid rest]

theorem copyProcess_eq (p : Process) : copyProcess p = p := rfl

theorem map_copyProcess : ∀ ps : List Process, ps.map copyProcess = ps
  | [] => rfl
  | p :: rest => by rw [List.map_cons, copyProcess_eq, map_copyProcess rest]

theorem isEmpty_false_of_ne_nil {l : List α} (h : l ≠ []) : l.isEmpty = false := by
  cases l with
  | nil => exact absurd rfl h
  | cons a l => rfl

theorem computeMetrics_ganttChart (procs : List Process) (g : List GanttSegment) :
    (computeMetrics procs g).ganttChart = g := rfl

theorem computeMetrics_totalTime (procs : List Process) (g : List GanttSegment) :
    (computeMetrics procs g).totalTime = totalTimeOf g := rfl

theorem computeMetrics_cpuUtilization (procs : List Process) (g : List GanttSegment) :
    (computeMetrics procs g).cpuUtilization =
      if 0 < totalTimeOf g then ((busyTimeOf g : ℚ) / (totalTimeOf g : ℚ)) * 100 else 0 := rfl

/-- FCFS wrapper: chain and per-pid conservation for the sort-then-sweep
implementation. -/
theorem scheduleFCFS_spec (ps : List Process) (hv : ∀ p ∈ ps, 0 < p.burstTime) :
    chainFrom 0 (scheduleFCFS ps) = true ∧
      ∀ pid, pidTime pid (scheduleFCFS ps) = burstSum pid ps := by
  constructor
  · exact fcfsGo_chain (sortBy fcfsLE ps) 0 (fun p hp => hv p (mem_sortBy.mp hp))
  · intro pid
    rw [scheduleFCFS, fcfsGo_pidTime (sortBy fcfsLE ps) 0 pid]
    exact burstSum_perm (sortBy_perm fcfsLE ps)

/-- SJF/Priority wrapper: the fueled loop completes for any fuel at least
twice the pool size, with chain and conservation. -/
theorem npLoop_spec (le : Process → Process → Bool)
    (htr : ∀ a b c : Process, le a b → le b c → le a c)
    (hto : ∀ a b : Process, le a b ∨ le b a)
    (ps : List Process) (t : Int) (fuel : Nat) (hfuel : 2 * ps.length ≤ fuel)
    (hv : ∀ p ∈ ps, 0 < p.burstTime) :
    ∃ g, npLoop le fuel ps t = some g ∧ chainFrom t g = true ∧
      ((ps.map Process.pid).Nodup → ∀ pid, pidTime pid g = burstSum pid ps) :=
  npLoop_master le htr hto ps.length fuel ps t (le_refl _) hfuel hv

/-- Round Robin wrapper: invariants of the initial state and fuel bound of
`scheduleRoundRobin`, specialized from the loop master lemma. -/
theorem scheduleRoundRobin_spec (ps : List Process) (q : Int) (hq : 1 ≤ q)
    (hv : ∀ p ∈ ps, 0 < p.burstTime) (fuel : Nat)
    (hfuel : totalBurstNat (sortBy rrLE (ps.map fun p => { toProcess := p, remainingBurst := p.burstTime })) +
      (sortBy rrLE (ps.map fun p => { toProcess := p, remainingBurst := p.burstTime })).length ≤ fuel) :
    ∃ g, rrLoop q fuel
        ((sortBy rrLE (ps.map fun p => { toProcess := p, remainingBurst := p.burstTime })).takeWhile
          fun x : RRProcess => decide (x.arrivalTime ≤ 0))
        ((sortBy rrLE (ps.map fun p => { toProcess := p, remainingBurst := p.burstTime })).dropWhile
          fun x : RRProcess => decide (x.arrivalTime ≤ 0))
        0 = some g ∧ chainFrom 0 g = true ∧
      ((ps.map Process.pid).Nodup → ∀ pid, pidTime pid g = burstSum pid ps) := by
  have hmem : ∀ x ∈ sortBy rrLE (ps.map fun p => { toProcess := p, remainingBurst := p.burstTime }),
      0 < x.remainingBurst := by
    intro x hx
    rcases List.mem_map.mp (mem_sortBy.mp hx) with ⟨p, hp, rfl⟩
    exact hv p hp
  have hsorted : (sortBy rrLE (ps.map fun p => { toProcess := p, remainingBurst := p.burstTime })).Pairwise
      (fun a b => a.arrivalTime ≤ b.arrivalTime) :=
    (sortBy_pairwise rrLE_trans rrLE_total _).imp (fun h => rrLE_arrival h)
  have hsplit := List.takeWhile_append_dropWhile
    (fun x : RRProcess => decide (x.arrivalTime ≤ 0))
    (sortBy rrLE (ps.map fun p => { toProcess := p, remainingBurst := p.burstTime }))
  obtain ⟨g, hg, hchain, hsum⟩ := rrLoop_master q hq fuel
    ((sortBy rrLE (ps.map fun p => { toProcess := p, remainingBurst := p.burstTime })).takeWhile
      fun x : RRProcess => decide (x.arrivalTime ≤ 0))
    ((sortBy rrLE (ps.map fun p => { toProcess := p, remainingBurst := p.burstTime })).dropWhile
      fun x : RRProcess => decide (x.arrivalTime ≤ 0))
    0
    (by
      rw [hsplit]
      have := (List.dropWhile_sublist
        (fun x : RRProcess => decide (x.arrivalTime ≤ 0))
        (l := sortBy rrLE (ps.map fun p => { toProcess := p, remainingBurst := p.burstTime }))).length_le
      omega)
    (fun x hx => hmem x ((List.takeWhile_sublist _).subset hx))
    (fun x hx => hmem x ((List.dropWhile_sublist _).subset hx))
    (fun x hx => dropWhile_arrival_gt hsorted x hx)
    (hsorted.sublist (List.dropWhile_sublist _))
  refine ⟨g, hg, hchain, ?_⟩
  intro hnd pid
  have hperm : List.Perm
      (sortBy rrLE (ps.map fun p => { toProcess := p, remainingBurst := p.burstTime }))
      (ps.map fun p => { toProcess := p, remainingBurst := p.burstTime }) := sortBy_perm _ _
  have hnd2 : ((((sortBy rrLE (ps.map fun p => { toProcess := p, remainingBurst := p.burstTime })).takeWhile
      fun x : RRProcess => decide (x.arrivalTime ≤ 0)) ++
      ((sortBy rrLE (ps.map fun p => { toProcess := p, remainingBurst := p.burstTime })).dropWhile
        fun x : RRProcess => decide (x.arrivalTime ≤ 0))).map
      (fun x : RRProcess => x.pid)).Nodup := by
    rw [hsplit]
    refine ((hperm.symm).map (fun x : RRProcess => x.pid)).nodup ?_
    have hmapmap : (ps.map fun p => ({ toProcess := p, remainingBurst := p.burstTime } : RRProcess)).map
        (fun x : RRProcess => x.pid) = ps.map Process.pid := by
      rw [List.map_map]
      rfl
    rw [hmapmap]
    exact hnd
  rw [hsum hnd2 pid, hsplit, remSum_perm hperm, remSum_map_toRR]

theorem simulateSchedule_empty (alg : String) (q : Int) :
    simulateSchedule [] alg q = .ok emptySimulationResult := rfl

theorem simulateSchedule_eq_of_ne_nil (ps : List Process) (q : Int) (hne : ps ≠ [])
    (alg : String) :
    simulateSchedule ps alg q =
      (if alg = "FCFS" then .ok (computeMetrics ps (scheduleFCFS ps))
       else if alg = "SJF" then .ok (computeMetrics ps (scheduleSJF ps))
       else if alg = "Priority" then .ok (computeMetrics ps (schedulePriority ps))
       else if alg = "RoundRobin" then .ok (computeMetrics ps (scheduleRoundRobin ps q))
       else .error ("Unknown algorithm: " ++ alg)) := by
  simp only [simulateSchedule, isEmpty_false_of_ne_nil hne, Bool.false_eq_true, if_false,
    map_copyProcess]

/-- Dispatch wrapper: on a non-empty valid input every recognized policy
produces `computeMetrics` of a chart that is contiguous from 0 and conserves
bursts. -/
theorem simulateSchedule_run (processes : List Process) (quantum : Int)
    (hne : processes ≠ [])
    (hv : ∀ p ∈ processes, 0 < p.burstTime) (hq : 1 ≤ quantum) :
    ∀ alg ∈ ["FCFS", "SJF", "Priority", "RoundRobin"],
      ∃ g, simulateSchedule processes alg quantum = .ok (computeMetrics processes g) ∧
        chainFrom 0 g = true ∧
        ((processes.map Process.pid).Nodup → ∀ pid, pidTime pid g = burstSum pid processes) := by
  intro alg halg
  rw [simulateSchedule_eq_of_ne_nil processes quantum hne alg]
  simp only [List.mem_cons, List.not_mem_nil, or_false] at halg
  rcases halg with rfl | rfl | rfl | rfl
  · exact ⟨scheduleFCFS processes, by rw [if_pos rfl],
      (scheduleFCFS_spec processes hv).1,
      fun _ pid => (scheduleFCFS_spec processes hv).2 pid⟩
  · obtain ⟨g, hg, hchain, hsum⟩ := npLoop_spec sjfLE sjfLE_trans sjfLE_total processes 0
      (2 * processes.length + 1) (by omega) hv
    have he : scheduleSJF processes = g := by rw [scheduleSJF, hg]; rfl
    refine ⟨g, ?_, hchain, hsum⟩
    rw [if_neg (by decide), if_pos rfl, he]
  · obtain ⟨g, hg, hchain, hsum⟩ := npLoop_spec prioLE prioLE_trans prioLE_total processes 0
      (2 * processes.length + 1) (by omega) hv
    have he : schedulePriority processes = g := by rw [schedulePriority, hg]; rfl
    refine ⟨g, ?_, hchain, hsum⟩
    rw [if_neg (by decide), if_neg (by decide), if_pos rfl, he]
  · obtain ⟨g, hg, hchain, hsum⟩ := scheduleRoundRobin_spec processes quantum hq hv
      (totalBurstNat (sortBy rrLE (processes.map fun p => { toProcess := p, remainingBurst := p.burstTime })) +
        (sortBy rrLE (processes.map fun p => { toProcess := p, remainingBurst := p.burstTime })).length + 1)
      (by omega)
    have he : scheduleRoundRobin processes quantum = g := by
      rw [scheduleRoundRobin, hg]
      rfl
    refine ⟨g, ?_, hchain, hsum⟩
    rw [if_neg (by decide), if_neg (by decide), if_neg (by decide), if_pos rfl, he]

end Glue

section Claims

/-- C1: for every input process list with valid descriptors (arrival ≥ 0,
burst > 0, pairwise-distinct pids) and every policy (quantum ≥ 1 for
RoundRobin), the timeline returned by `simulateSchedule` is chronological,
non-overlapping and contiguous: each segment has `endTime > start`, each
segment starts where the previous one ended, the first segment starts at 0
(all captured by `chainFrom 0`), the timeline is empty for the empty input,
and `totalTime` is the last segment's end. -/
theorem C1_timeline_contiguous (processes : List Process) (quantum : Int)
    (hv : ∀ p ∈ processes, 0 ≤ p.arrivalTime ∧ 0 < p.burstTime)
    (hpid : (processes.map Process.pid).Nodup)
    (hq : 1 ≤ quantum) :
    ∀ alg ∈ ["FCFS", "SJF", "Priority", "RoundRobin"],
      ∃ r, simulateSchedule processes alg quantum = .ok r ∧
        chainFrom 0 r.ganttChart = true ∧
        (processes = [] → r.ganttChart = []) ∧
        r.totalTime = totalTimeOf r.ganttChart := by
  intro alg halg
  by_cases hne : processes = []
  · subst hne
    exact ⟨emptySimulationResult, simulateSchedule_empty alg quantum, rfl, fun _ => rfl, rfl⟩
  · obtain ⟨g, hg, hchain, _⟩ :=
      simulateSchedule_run processes quantum hne (fun p hp => (hv p hp).2) hq alg halg
    refine ⟨computeMetrics processes g, hg, ?_, fun h => absurd h hne, ?_⟩
    · rw [computeMetrics_ganttChart]
      exact hchain
    · rw [computeMetrics_ganttChart, computeMetrics_totalTime]

/-- Witness for C1 at a concrete valid input under RoundRobin. -/
theorem C1_timeline_contiguous_witness :
    ∃ r, simulateSchedule [⟨"P1", 0, 5, 1, 0⟩, ⟨"P2", 2, 3, 1, 1⟩] "RoundRobin" 2 = .ok r ∧
      chainFrom 0 r.ganttChart = true ∧
      ([⟨"P1", 0, 5, 1, 0⟩, ⟨"P2", 2, 3, 1, 1⟩] = ([] : List Process) → r.ganttChart = []) ∧
      r.totalTime = totalTimeOf r.ganttChart :=
  C1_timeline_contiguous [⟨"P1", 0, 5, 1, 0⟩, ⟨"P2", 2, 3, 1, 1⟩] 2
    (by decide) (by decide) (by decide) "RoundRobin" (by decide)

/-- C2: for every input process list with valid descriptors and every one of
the four policies (quantum ≥ 1 for RoundRobin), each input process's pid
receives timeline segments whose durations sum to exactly its burst time. -/
theorem C2_work_conservation (processes : List Process) (quantum : Int)
    (hv : ∀ p ∈ processes, 0 ≤ p.arrivalTime ∧ 0 < p.burstTime)
    (hpid : (processes.map Process.pid).Nodup)
    (hq : 1 ≤ quantum) :
    ∀ alg ∈ ["FCFS", "SJF", "Priority", "RoundRobin"],
      ∃ r, simulateSchedule processes alg quantum = .ok r ∧
        ∀ p ∈ processes, pidTime p.pid r.ganttChart = p.burstTime := by
  intro alg halg
  by_cases hne : processes = []
  · subst hne
    exact ⟨emptySimulationResult, simulateSchedule_empty alg quantum,
      fun p hp => absurd hp (List.not_mem_nil p)⟩
  · obtain ⟨g, hg, _, hsum⟩ :=
      simulateSchedule_run processes quantum hne (fun p hp => (hv p hp).2) hq alg halg
    refine ⟨computeMetrics processes g, hg, ?_⟩
    intro p hp
    rw [computeMetrics_ganttChart, hsum hpid p.pid, burstSum_of_mem hpid hp]

/-- Witness for C2 at a concrete valid input under RoundRobin. -/
theorem C2_work_conservation_witness :
    ∃ r, simulateSchedule [⟨"P1", 0, 5, 1, 0⟩, ⟨"P2", 2, 3, 1, 1⟩] "RoundRobin" 2 = .ok r ∧
      ∀ p ∈ [(⟨"P1", 0, 5, 1, 0⟩ : Process), ⟨"P2", 2, 3, 1, 1⟩],
        pidTime p.pid r.ganttChart = p.burstTime :=
  C2_work_conservation [⟨"P1", 0, 5, 1, 0⟩, ⟨"P2", 2, 3, 1, 1⟩] 2
    (by decide) (by decide) (by decide) "RoundRobin" (by decide)

/-- C4 counterexample: with an empty process list and an unrecognized policy
token, `simulateSchedule` does not fail — the empty-input early return fires
before the policy dispatch and yields the zeroed result. -/
theorem C4_empty_input_counterexample :
    simulateSchedule [] "Bogus" 2 = .ok emptySimulationResult ∧
      ∀ msg, simulateSchedule [] "Bogus" 2 ≠ .error msg :=
  ⟨rfl, fun _ h => nomatch h⟩

/-- C4 (amended): for every non-empty input process list, an unrecognized
policy token makes `simulateSchedule` fail fast with the thrown error and no
result; the empty list instead returns the zeroed empty result before the
dispatch. -/
theorem C4_unsupported_policy (processes : List Process) (alg : String) (q : Int)
    (hne : processes ≠ [])
    (h1 : alg ≠ "FCFS") (h2 : alg ≠ "SJF") (h3 : alg ≠ "Priority")
    (h4 : alg ≠ "RoundRobin") :
    simulateSchedule processes alg q = .error ("Unknown algorithm: " ++ alg) := by
  rw [simulateSchedule_eq_of_ne_nil processes q hne alg, if_neg h1, if_neg h2, if_neg h3,
    if_neg h4]

/-- Witness for C4 (amended) at a concrete input. -/
theorem C4_unsupported_policy_witness :
    simulateSchedule [⟨"P1", 0, 1, 0, 0⟩] "SRTF" 2 = .error ("Unknown algorithm: " ++ "SRTF") :=
  C4_unsupported_policy [⟨"P1", 0, 1, 0, 0⟩] "SRTF" 2 (by decide) (by decide) (by decide)
    (by decide) (by decide)

theorem length_le_burstNatSum :
    ∀ {ps : List Process}, (∀ p ∈ ps, 0 < p.burstTime) →
      ps.length ≤ (ps.map fun p => p.burstTime.toNat).sum
  | [], _ => Nat.le_refl 0
  | p :: rest, hv => by
    have h1 : 0 < p.burstTime := hv p (List.mem_cons_self p rest)
    have h2 := length_le_burstNatSum (fun x hx => hv x (List.mem_cons_of_mem p hx))
    simp only [List.length_cons, List.map_cons, List.sum_cons]
    omega

theorem totalBurstNat_perm {l l' : List RRProcess} (h : List.Perm l l') :
    totalBurstNat l = totalBurstNat l' :=
  (h.map _).sum_eq

theorem totalBurstNat_map_toRR (ps : List Process) :
    totalBurstNat (ps.map fun p => ({ toProcess := p, remainingBurst := p.burstTime } : RRProcess)) =
      (ps.map fun p => p.burstTime.toNat).sum := by
  rw [totalBurstNat, List.map_map]
  rfl

/-- C5: with burst > 0 for every process (and quantum ≥ 1 for Round Robin)
every scheduling loop completes within total-burst-time + process-count
iterations (the fueled loops return `some` at exactly that fuel), and
`simulateSchedule` terminates with a result for all four policies. -/
theorem C5_termination (processes : List Process) (quantum : Int)
    (hv : ∀ p ∈ processes, 0 < p.burstTime) (hq : 1 ≤ quantum) :
    ((npLoop sjfLE ((processes.map fun p => p.burstTime.toNat).sum + processes.length)
        processes 0).isSome = true) ∧
    ((npLoop prioLE ((processes.map fun p => p.burstTime.toNat).sum + processes.length)
        processes 0).isSome = true) ∧
    ((rrLoop quantum ((processes.map fun p => p.burstTime.toNat).sum + processes.length)
        ((sortBy rrLE (processes.map fun p => { toProcess := p, remainingBurst := p.burstTime })).takeWhile
          fun x : RRProcess => decide (x.arrivalTime ≤ 0))
        ((sortBy rrLE (processes.map fun p => { toProcess := p, remainingBurst := p.burstTime })).dropWhile
          fun x : RRProcess => decide (x.arrivalTime ≤ 0))
        0).isSome = true) ∧
    ∀ alg ∈ ["FCFS", "SJF", "Priority", "RoundRobin"],
      ∃ r, simulateSchedule processes alg quantum = .ok r := by
  have hge := length_le_burstNatSum hv
  refine ⟨?_, ?_, ?_, ?_⟩
  · obtain ⟨g, hg, -, -⟩ := npLoop_spec sjfLE sjfLE_trans sjfLE_total processes 0
      ((processes.map fun p => p.burstTime.toNat).sum + processes.length) (by omega) hv
    rw [hg]
    rfl
  · obtain ⟨g, hg, -, -⟩ := npLoop_spec prioLE prioLE_trans prioLE_total processes 0
      ((processes.map fun p => p.burstTime.toNat).sum + processes.length) (by omega) hv
    rw [hg]
    rfl
  · have hT : totalBurstNat
        (sortBy rrLE (processes.map fun p => { toProcess := p, remainingBurst := p.burstTime })) =
        (processes.map fun p => p.burstTime.toNat).sum := by
      rw [totalBurstNat_perm (sortBy_perm rrLE _), totalBurstNat_map_toRR]
    have hlen : (sortBy rrLE (processes.map fun p => { toProcess := p, remainingBurst := p.burstTime })).length =
        processes.length := by
      rw [length_sortBy, List.length_map]
    obtain ⟨g, hg, -, -⟩ := scheduleRoundRobin_spec processes quantum hq hv
      ((processes.map fun p => p.burstTime.toNat).sum + processes.length) (by omega)
    rw [hg]
    rfl
  · intro alg halg
    by_cases hne : processes = []
    · subst hne
      exact ⟨emptySimulationResult, simulateSchedule_empty alg quantum⟩
    · obtain ⟨g, hg, -, -⟩ := simulateSchedule_run processes quantum hne hv hq alg halg
      exact ⟨computeMetrics processes g, hg⟩

/-- Witness for C5 at a concrete input. -/
theorem C5_termination_witness :
    ((npLoop sjfLE (([(⟨"P1", 0, 2, 0, 0⟩ : Process), ⟨"P2", 3, 1, 0, 1⟩].map
        fun p => p.burstTime.toNat).sum + 2) [⟨"P1", 0, 2, 0, 0⟩, ⟨"P2", 3, 1, 0, 1⟩] 0).isSome = true) ∧
    ((npLoop prioLE (([(⟨"P1", 0, 2, 0, 0⟩ : Process), ⟨"P2", 3, 1, 0, 1⟩].map
        fun p => p.burstTime.toNat).sum + 2) [⟨"P1", 0, 2, 0, 0⟩, ⟨"P2", 3, 1, 0, 1⟩] 0).isSome = true) ∧
    ((rrLoop 2 (([(⟨"P1", 0, 2, 0, 0⟩ : Process), ⟨"P2", 3, 1, 0, 1⟩].map
        fun p => p.burstTime.toNat).sum + 2)
        ((sortBy rrLE ([(⟨"P1", 0, 2, 0, 0⟩ : Process), ⟨"P2", 3, 1, 0, 1⟩].map
          fun p => { toProcess := p, remainingBurst := p.burstTime })).takeWhile
          fun x : RRProcess => decide (x.arrivalTime ≤ 0))
        ((sortBy rrLE ([(⟨"P1", 0, 2, 0, 0⟩ : Process), ⟨"P2", 3, 1, 0, 1⟩].map
          fun p => { toProcess := p, remainingBurst := p.burstTime })).dropWhile
          fun x : RRProcess => decide (x.arrivalTime ≤ 0))
        0).isSome = true) ∧
    ∀ alg ∈ ["FCFS", "SJF", "Priority", "RoundRobin"],
      ∃ r, simulateSchedule [⟨"P1", 0, 2, 0, 0⟩, ⟨"P2", 3, 1, 0, 1⟩] alg 2 = .ok r := by
  have h := C5_termination [⟨"P1", 0, 2, 0, 0⟩, ⟨"P2", 3, 1, 0, 1⟩] 2 (by decide) (by decide)
  simpa using h

/-- C6: for every timeline, `computeMetrics` sets `cpuUtilization` to
`100 × busyTime / totalTime` (0 when `totalTime` is 0), and the single
process (P1, arrival 2, burst 3) under FCFS yields utilization 60. -/
theorem C6_cpu_utilization :
    (∀ (procs : List Process) (g : List GanttSegment),
      (computeMetrics procs g).cpuUtilization =
        if 0 < totalTimeOf g then 100 * (busyTimeOf g : ℚ) / (totalTimeOf g : ℚ) else 0) ∧
    (∃ r, simulateSchedule [⟨"P1", 2, 3, 0, 0⟩] "FCFS" 2 = .ok r ∧ r.cpuUtilization = 60) := by
  constructor
  · intro procs g
    rw [computeMetrics_cpuUtilization]
    by_cases h : 0 < totalTimeOf g
    · rw [if_pos h, if_pos h]
      ring
    · rw [if_neg h, if_neg h]
  · refine ⟨computeMetrics [⟨"P1", 2, 3, 0, 0⟩] (scheduleFCFS [⟨"P1", 2, 3, 0, 0⟩]), ?_, ?_⟩
    · rw [simulateSchedule_eq_of_ne_nil _ _ (by decide) _, if_pos rfl]
    · rw [computeMetrics_cpuUtilization]
      have h1 : totalTimeOf (scheduleFCFS [⟨"P1", 2, 3, 0, 0⟩]) = 5 := by decide
      have h2 : busyTimeOf (scheduleFCFS [⟨"P1", 2, 3, 0, 0⟩]) = 3 := by decide
      rw [h1, h2, if_pos (by norm_num)]
      norm_num

set_option maxHeartbeats 2000000 in
/-- C9: `validateProcess` checks the four rules independently and reports
every violated rule: each message is present exactly when its rule is
violated, `valid` holds exactly when `errors` is empty, the messages are not
duplicated, and the (empty id, negative arrival) descriptor reports both
corresponding messages. -/
theorem C9_validator_reports_all (p : PartialProcess) :
    ((validateProcess p).valid = true ↔ (validateProcess p).errors = []) ∧
    ("Process ID is required" ∈ (validateProcess p).errors ↔
      (p.pid = none ∨ ∃ s, p.pid = some s ∧ trimEmpty s = true)) ∧
    ("Arrival time must be >= 0" ∈ (validateProcess p).errors ↔
      (p.arrivalTime = none ∨ ∃ a, p.arrivalTime = some a ∧ a < 0)) ∧
    ("Burst time must be > 0" ∈ (validateProcess p).errors ↔
      (p.burstTime = none ∨ ∃ b, p.burstTime = some b ∧ b ≤ 0)) ∧
    ("Priority must be >= 0" ∈ (validateProcess p).errors ↔
      (p.priority = none ∨ ∃ r, p.priority = some r ∧ r < 0)) ∧
    (validateProcess p).errors.Nodup ∧
    (validateProcess ⟨some "", some (-1 : ℚ), some 3, some 0⟩).errors =
      ["Process ID is required", "Arrival time must be >= 0"] := by
  have hconcrete : (validateProcess ⟨some "", some (-1 : ℚ), some 3, some 0⟩).errors =
      ["Process ID is required", "Arrival time must be >= 0"] := by decide
  obtain ⟨pid, arr, bt, pr⟩ := p
  refine ⟨?_, ?_, ?_, ?_, ?_, ?_, hconcrete⟩ <;> clear hconcrete <;>
    cases pid <;> cases arr <;> cases bt <;> cases pr <;>
      simp only [validateProcess] <;> (try split_ifs) <;> simp_all

/-- C10: `validateProcess` does not enforce integrality of the numeric
fields: the descriptor (id "P9", arrival 1.5, burst 0.5, priority 2.5) is
accepted as valid with no errors. -/
theorem C10_accepts_fractional_fields :
    (validateProcess ⟨some "P9", some (3 / 2 : ℚ), some (1 / 2 : ℚ), some (5 / 2 : ℚ)⟩).valid = true ∧
    (validateProcess ⟨some "P9", some (3 / 2 : ℚ), some (1 / 2 : ℚ), some (5 / 2 : ℚ)⟩).errors = [] := by
  have h0 : trimEmpty "P9" = false := by decide
  have h1 : ¬ ((3 / 2 : ℚ) < 0) := by norm_num
  have h2 : ¬ ((1 / 2 : ℚ) ≤ 0) := by norm_num
  have h3 : ¬ ((5 / 2 : ℚ) < 0) := by norm_num
  constructor <;> simp [validateProcess, h0, h1, h2, h3]

/-- C3: after a Round Robin slice, the loop first appends every
not-yet-enqueued process whose arrival time is at most the slice's end (under
the sortedness maintained by the loop the enqueued prefix is exactly all such
processes, in arrival/insertion order), and only then pushes the preempted
process to the back, so every such arrival — including one at exactly the
preemption instant — sits strictly ahead of the preempted process in the
next queue. -/
theorem C3_rr_enqueue_order (quantum : Int) (fuel : Nat) (current : RRProcess)
    (rest pending : List RRProcess) (t : Int)
    (hsorted : pending.Pairwise fun a b => a.arrivalTime ≤ b.arrivalTime) :
    (rrLoop quantum (fuel + 1) (current :: rest) pending t =
      (rrLoop quantum fuel
        (rest ++ (pending.takeWhile fun x : RRProcess =>
            decide (x.arrivalTime ≤ t + min quantum current.remainingBurst))
          ++ (if 0 < current.remainingBurst - min quantum current.remainingBurst then
              [{ current with remainingBurst := current.remainingBurst - min quantum current.remainingBurst }]
            else []))
        (pending.dropWhile fun x : RRProcess =>
          decide (x.arrivalTime ≤ t + min quantum current.remainingBurst))
        (t + min quantum current.remainingBurst)).map
        (fun g => ⟨some current.pid, t, t + min quantum current.remainingBurst⟩ :: g)) ∧
    ((pending.takeWhile fun x : RRProcess =>
        decide (x.arrivalTime ≤ t + min quantum current.remainingBurst)) =
      pending.filter fun x : RRProcess =>
        decide (x.arrivalTime ≤ t + min quantum current.remainingBurst)) ∧
    (0 < current.remainingBurst - min quantum current.remainingBurst →
      ∀ x ∈ pending, x.arrivalTime ≤ t + min quantum current.remainingBurst →
        ∃ l₁ l₂,
          rest ++ (pending.takeWhile fun x : RRProcess =>
              decide (x.arrivalTime ≤ t + min quantum current.remainingBurst))
            ++ [{ current with remainingBurst := current.remainingBurst - min quantum current.remainingBurst }] =
            l₁ ++ x :: l₂ ∧
          ({ current with remainingBurst := current.remainingBurst - min quantum current.remainingBurst } : RRProcess) ∈ l₂) := by
  refine ⟨rrLoop_run quantum fuel current rest pending t,
    takeWhile_arrival_filter hsorted, ?_⟩
  intro _ x hx harr
  have hxtw : x ∈ pending.takeWhile fun x : RRProcess =>
      decide (x.arrivalTime ≤ t + min quantum current.remainingBurst) := by
    rw [takeWhile_arrival_filter hsorted]
    exact List.mem_filter.mpr ⟨hx, by simpa using harr⟩
  obtain ⟨l₁, l₂, hsplit⟩ := List.append_of_mem hxtw
  refine ⟨rest ++ l₁,
    l₂ ++ [{ current with remainingBurst := current.remainingBurst - min quantum current.remainingBurst }],
    ?_, ?_⟩
  · rw [hsplit]
    simp
  · simp

/-- Witness for C3: P2 arrives at time 2, exactly when P1's first slice
(quantum 2) ends; the step equation and the ordering hold at this state. -/
theorem C3_rr_enqueue_order_witness :
    (rrLoop 2 (3 + 1) ([⟨⟨"P1", 0, 4, 0, 0⟩, 4⟩] : List RRProcess) [⟨⟨"P2", 2, 3, 0, 1⟩, 3⟩] 0 =
      (rrLoop 2 3
        (([] : List RRProcess) ++ (([⟨⟨"P2", 2, 3, 0, 1⟩, 3⟩] : List RRProcess).takeWhile
            fun x : RRProcess => decide (x.arrivalTime ≤ 0 + min 2 (⟨⟨"P1", 0, 4, 0, 0⟩, 4⟩ : RRProcess).remainingBurst))
          ++ (if 0 < (⟨⟨"P1", 0, 4, 0, 0⟩, 4⟩ : RRProcess).remainingBurst - min 2 (⟨⟨"P1", 0, 4, 0, 0⟩, 4⟩ : RRProcess).remainingBurst then
              [{ (⟨⟨"P1", 0, 4, 0, 0⟩, 4⟩ : RRProcess) with
                  remainingBurst := (⟨⟨"P1", 0, 4, 0, 0⟩, 4⟩ : RRProcess).remainingBurst - min 2 (⟨⟨"P1", 0, 4, 0, 0⟩, 4⟩ : RRProcess).remainingBurst }]
            else []))
        (([⟨⟨"P2", 2, 3, 0, 1⟩, 3⟩] : List RRProcess).dropWhile
          fun x : RRProcess => decide (x.arrivalTime ≤ 0 + min 2 (⟨⟨"P1", 0, 4, 0, 0⟩, 4⟩ : RRProcess).remainingBurst))
        (0 + min 2 (⟨⟨"P1", 0, 4, 0, 0⟩, 4⟩ : RRProcess).remainingBurst)).map
        (fun g => ⟨some (⟨⟨"P1", 0, 4, 0, 0⟩, 4⟩ : RRProcess).pid, 0,
          0 + min 2 (⟨⟨"P1", 0, 4, 0, 0⟩, 4⟩ : RRProcess).remainingBurst⟩ :: g)) ∧
    ((([⟨⟨"P2", 2, 3, 0, 1⟩, 3⟩] : List RRProcess).takeWhile fun x : RRProcess =>
        decide (x.arrivalTime ≤ 0 + min 2 (⟨⟨"P1", 0, 4, 0, 0⟩, 4⟩ : RRProcess).remainingBurst)) =
      ([⟨⟨"P2", 2, 3, 0, 1⟩, 3⟩] : List RRProcess).filter fun x : RRProcess =>
        decide (x.arrivalTime ≤ 0 + min 2 (⟨⟨"P1", 0, 4, 0, 0⟩, 4⟩ : RRProcess).remainingBurst)) ∧
    (0 < (⟨⟨"P1", 0, 4, 0, 0⟩, 4⟩ : RRProcess).remainingBurst - min 2 (⟨⟨"P1", 0, 4, 0, 0⟩, 4⟩ : RRProcess).remainingBurst →
      ∀ x ∈ ([⟨⟨"P2", 2, 3, 0, 1⟩, 3⟩] : List RRProcess),
        x.arrivalTime ≤ 0 + min 2 (⟨⟨"P1", 0, 4, 0, 0⟩, 4⟩ : RRProcess).remainingBurst →
        ∃ l₁ l₂,
          ([] : List RRProcess) ++ (([⟨⟨"P2", 2, 3, 0, 1⟩, 3⟩] : List RRProcess).takeWhile
              fun x : RRProcess => decide (x.arrivalTime ≤ 0 + min 2 (⟨⟨"P1", 0, 4, 0, 0⟩, 4⟩ : RRProcess).remainingBurst))
            ++ [{ (⟨⟨"P1", 0, 4, 0, 0⟩, 4⟩ : RRProcess) with
                remainingBurst := (⟨⟨"P1", 0, 4, 0, 0⟩, 4⟩ : RRProcess).remainingBurst - min 2 (⟨⟨"P1", 0, 4, 0, 0⟩, 4⟩ : RRProcess).remainingBurst }] =
            l₁ ++ x :: l₂ ∧
          ({ (⟨⟨"P1", 0, 4, 0, 0⟩, 4⟩ : RRProcess) with
              remainingBurst := (⟨⟨"P1", 0, 4, 0, 0⟩, 4⟩ : RRProcess).remainingBurst - min 2 (⟨⟨"P1", 0, 4, 0, 0⟩, 4⟩ : RRProcess).remainingBurst } : RRProcess) ∈ l₂) :=
  C3_rr_enqueue_order 2 3 ⟨⟨"P1", 0, 4, 0, 0⟩, 4⟩ [] [⟨⟨"P2", 2, 3, 0, 1⟩, 3⟩] 0 (by decide)

theorem npFCFSSpec_nil (fuel : Nat) (t : Int) : npFCFSSpec fuel [] t = some [] := by
  cases fuel <;> rfl

theorem npFCFSSpec_succ (fuel : Nat) (p : Process) (ps : List Process) (t : Int) :
    npFCFSSpec (fuel + 1) (p :: ps) t =
      (if ((p :: ps).filter fun q => decide (q.arrivalTime ≤ t)).isEmpty then
        (npFCFSSpec fuel (p :: ps) (minArrival (p :: ps))).map
          (fun g => ⟨none, t, minArrival (p :: ps)⟩ :: g)
      else
        match sortBy fcfsLE ((p :: ps).filter fun q => decide (q.arrivalTime ≤ t)) with
        | [] => none
        | selected :: _ =>
          (npFCFSSpec fuel ((p :: ps).erase selected) (t + selected.burstTime)).map
            (fun g => ⟨some selected.pid, t, t + selected.burstTime⟩ :: g)) := rfl

theorem eq_of_pairwise_ne_insertionOrder {l : List Process}
    (h : l.Pairwise fun a b => a.insertionOrder ≠ b.insertionOrder)
    {a b : Process} (ha : a ∈ l) (hb : b ∈ l)
    (he : a.insertionOrder = b.insertionOrder) : a = b := by
  have hnd : (l.map Process.insertionOrder).Nodup := List.pairwise_map.mpr h
  exact List.inj_on_of_nodup_map hnd ha hb he

theorem fcfs_antisym_of_distinct {l : List Process}
    (h : l.Pairwise fun a b => a.insertionOrder ≠ b.insertionOrder) :
    ∀ a ∈ l, ∀ b ∈ l, fcfsLE a b → fcfsLE b a → a = b :=
  fun a ha b hb h1 h2 =>
    eq_of_pairwise_ne_insertionOrder h ha hb (fcfsLE_antisymm h1 h2).2

theorem sortBy_filter_head {l : List Process} {c : Int} {s : Process}
    (hanti : ∀ a ∈ l, ∀ b ∈ l, fcfsLE a b → fcfsLE b a → a = b)
    (hs : s ∈ l) (hmin : ∀ y ∈ l, fcfsLE s y) (hsc : s.arrivalTime ≤ c) :
    ∃ srest, sortBy fcfsLE (l.filter fun q => decide (q.arrivalTime ≤ c)) = s :: srest := by
  have hsav : s ∈ l.filter fun q => decide (q.arrivalTime ≤ c) :=
    List.mem_filter.mpr ⟨hs, by simpa using hsc⟩
  rcases hsort2 : sortBy fcfsLE (l.filter fun q => decide (q.arrivalTime ≤ c)) with _ | ⟨s2, rest2⟩
  · refine absurd hsort2 (sortBy_ne_nil ?_)
    intro h0
    rw [h0] at hsav
    cases hsav
  · have hs2l : s2 ∈ l :=
      List.mem_of_mem_filter (mem_sortBy.mp (hsort2 ▸ List.mem_cons_self s2 rest2))
    have h1 : fcfsLE s s2 := hmin s2 hs2l
    have h2 : fcfsLE s2 s := sortBy_head_min fcfsLE_trans fcfsLE_total hsort2 s hsav
    have he : s2 = s := hanti s2 hs2l s hs h2 h1
    subst he
    exact ⟨rest2, rfl⟩

/-- The spec's general FCFS loop coincides with the sort-then-sweep
implementation, given pairwise-distinct insertion orders (which make the
FCFS ordering antisymmetric on the pool). -/
theorem npFCFSSpec_eq_fcfsGo :
    ∀ (n fuel : Nat) (l : List Process) (t : Int),
      l.length ≤ n → 2 * n ≤ fuel →
      l.Pairwise (fun a b => a.insertionOrder ≠ b.insertionOrder) →
      npFCFSSpec fuel l t = some (fcfsGo (sortBy fcfsLE l) t) := by
  intro n
  induction n with
  | zero =>
    intro fuel l t hlen _ _
    have h0 : l = [] := List.length_eq_zero.mp (Nat.le_zero.mp hlen)
    subst h0
    rw [npFCFSSpec_nil]
    rfl
  | succ n IH =>
    intro fuel l t hlen hfuel hins
    cases l with
    | nil => rw [npFCFSSpec_nil]; rfl
    | cons p ps =>
      have hanti := fcfs_antisym_of_distinct hins
      rcases hsort : sortBy fcfsLE (p :: ps) with _ | ⟨s, srest⟩
      · exact absurd hsort (sortBy_ne_nil (by simp))
      have hsl : s ∈ p :: ps := mem_sortBy.mp (hsort ▸ List.mem_cons_self s srest)
      have hmin : ∀ y ∈ p :: ps, fcfsLE s y :=
        sortBy_head_min fcfsLE_trans fcfsLE_total hsort
      have hpeel : sortBy fcfsLE (p :: ps) = s :: sortBy fcfsLE ((p :: ps).erase s) :=
        sortBy_peel fcfsLE_trans fcfsLE_total hanti hsl hmin
      have hsrest : srest = sortBy fcfsLE ((p :: ps).erase s) := by
        have h := hpeel
        rw [hsort] at h
        injection h
      have hlen2 : ((p :: ps).erase s).length ≤ n := by
        rw [List.length_erase_of_mem hsl]
        simpa using hlen
      have hins2 : ((p :: ps).erase s).Pairwise
          (fun a b => a.insertionOrder ≠ b.insertionOrder) :=
        hins.sublist (List.erase_sublist s (p :: ps))
      have hstep : ∀ (fuel2 : Nat) (t2 : Int), 2 * n + 1 ≤ fuel2 → s.arrivalTime ≤ t2 →
          npFCFSSpec fuel2 (p :: ps) t2 =
            some (⟨some s.pid, t2, t2 + s.burstTime⟩ ::
              fcfsGo (sortBy fcfsLE ((p :: ps).erase s)) (t2 + s.burstTime)) := by
        intro fuel2 t2 hf2 hst2
        cases fuel2 with
        | zero => omega
        | succ f2 =>
          obtain ⟨srest2, hsel⟩ := sortBy_filter_head hanti hsl hmin hst2
          have hemp : ((p :: ps).filter fun q => decide (q.arrivalTime ≤ t2)).isEmpty = false := by
            have hmem : s ∈ (p :: ps).filter fun q => decide (q.arrivalTime ≤ t2) :=
              List.mem_filter.mpr ⟨hsl, by simpa using hst2⟩
            cases h0 : (p :: ps).filter fun q => decide (q.arrivalTime ≤ t2) with
            | nil => rw [h0] at hmem; cases hmem
            | cons a rest0 => rfl
          rw [npFCFSSpec_succ, if_neg (by simp [hemp]), hsel]
          show (npFCFSSpec f2 ((p :: ps).erase s) (t2 + s.burstTime)).map
              (fun g => ⟨some s.pid, t2, t2 + s.burstTime⟩ :: g) = _
          rw [IH f2 ((p :: ps).erase s) (t2 + s.burstTime) hlen2 (by omega) hins2]
          rfl
      by_cases hav : ((p :: ps).filter fun q => decide (q.arrivalTime ≤ t)) = []
      · cases fuel with
        | zero => omega
        | succ f =>
          have hgt : ∀ x ∈ p :: ps, t < x.arrivalTime := by
            intro x hx
            have hx' := List.filter_eq_nil_iff.mp hav x hx
            simpa using hx'
          have hna : minArrival (p :: ps) = s.arrivalTime := by
            have h1 : minArrival (p :: ps) ≤ s.arrivalTime := minArrival_le hsl
            have h2 : s.arrivalTime ≤ minArrival (p :: ps) :=
              le_minArrival (by simp) (fun x hx => fcfsLE_arrival (hmin x hx))
            omega
          have hts : t < s.arrivalTime := hgt s hsl
          have hemp : ((p :: ps).filter fun q => decide (q.arrivalTime ≤ t)).isEmpty = true := by
            rw [hav]
            rfl
          rw [hsrest, npFCFSSpec_succ, if_pos hemp, hna,
            hstep f s.arrivalTime (by omega) (le_refl _)]
          simp only [fcfsGo, if_pos hts, Option.map_some']
      · have hst : s.arrivalTime ≤ t := by
          rcases List.exists_mem_of_ne_nil _ hav with ⟨y, hy⟩
          have hyl : y ∈ p :: ps := List.mem_of_mem_filter hy
          have hyt : y.arrivalTime ≤ t := by simpa using List.of_mem_filter hy
          have := fcfsLE_arrival (hmin y hyl)
          omega
        rw [hsrest, hstep fuel t (by omega) hst]
        have hnot : ¬ (t < s.arrivalTime) := by omega
        simp only [fcfsGo, if_neg hnot]

/-- C7: on every input process list satisfying the data model's invariant of
pairwise-distinct insertionOrders, the single-global-sort FCFS
implementation produces the same timeline as the spec's general
non-preemptive loop with the FCFS ordering (which surely completes within
fuel 2n). -/
theorem C7_fcfs_refinement (processes : List Process)
    (hins : processes.Pairwise fun a b => a.insertionOrder ≠ b.insertionOrder) :
    npFCFSSpec (2 * processes.length) processes 0 = some (scheduleFCFS processes) :=
  npFCFSSpec_eq_fcfsGo processes.length (2 * processes.length) processes 0
    (le_refl _) (le_refl _) hins

/-- Witness for C7 at a concrete input with an idle gap and a tie in arrival
times broken by insertion order. -/
theorem C7_fcfs_refinement_witness :
    npFCFSSpec (2 * ([(⟨"P1", 3, 4, 0, 0⟩ : Process), ⟨"P2", 0, 2, 0, 1⟩, ⟨"P3", 0, 1, 0, 2⟩].length))
      [⟨"P1", 3, 4, 0, 0⟩, ⟨"P2", 0, 2, 0, 1⟩, ⟨"P3", 0, 1, 0, 2⟩] 0 =
      some (scheduleFCFS [⟨"P1", 3, 4, 0, 0⟩, ⟨"P2", 0, 2, 0, 1⟩, ⟨"P3", 0, 1, 0, 2⟩]) :=
  C7_fcfs_refinement [⟨"P1", 3, 4, 0, 0⟩, ⟨"P2", 0, 2, 0, 1⟩, ⟨"P3", 0, 1, 0, 2⟩] (by decide)

end Claims

end Scheduler
